import Mathlib

/-!
# Verification of the goblinbookie-backend ETL pipeline

A shallow embedding of the core data transformations of the daily sync
pipeline (TypeScript sources under `scripts/` and `src/utils/`), together
with theorems settling the specification claims about them.

JavaScript objects are modelled as insertion-ordered association lists
(`Obj`), JS string comparison (`<` on strings, the default `Array.sort`
comparator) as lexicographic comparison of the lists of UTF-16 code units,
and numeric price values as integers (the pipeline never computes with a
price, it only moves values around, so the numeric type is opaque).
-/

/-! ## JavaScript object model

A JS object is an insertion-ordered map from string keys to values.
`getO` is property read (`o[k]`, `undefined` becomes `none`), `setO` is
property assignment (`o[k] = v`: overwrite in place if the key exists,
append otherwise). -/

abbrev Obj (α : Type) : Type := List (String × α)

def getO {α : Type} : Obj α → String → Option α
  | [], _ => none
  | (k', v) :: rest, k => if k' = k then some v else getO rest k

def setO {α : Type} : Obj α → String → α → Obj α
  | [], k, v => [(k, v)]
  | (k', v') :: rest, k, v =>
    if k' = k then (k', v) :: rest else (k', v') :: setO rest k v

def objKeys {α : Type} (o : Obj α) : List String := o.map Prod.fst

/-- A JS object never binds the same key twice. -/
def nodupKeys {α : Type} (o : Obj α) : Prop := (objKeys o).Nodup

instance {α : Type} (o : Obj α) : Decidable (nodupKeys o) := by
  unfold nodupKeys; infer_instance

theorem getO_setO {α : Type} (o : Obj α) (k k' : String) (v : α) :
    getO (setO o k v) k' = if k = k' then some v else getO o k' := by
  induction o with
  | nil =>
    show getO [(k, v)] k' = _
    by_cases h : k = k'
    · simp [getO, h]
    · simp [getO, h, fun h' : k = k' => h h']
  | cons p rest ih =>
    obtain ⟨k₀, v₀⟩ := p
    by_cases h0 : k₀ = k
    · subst h0
      simp only [setO, if_pos rfl]
      by_cases h1 : k₀ = k'
      · simp [getO, h1]
      · simp [getO, h1]
    · simp only [setO, if_neg h0]
      by_cases h1 : k₀ = k'
      · subst h1
        have hne : ¬ k = k₀ := fun h => h0 h.symm
        simp [getO, hne]
      · simp [getO, h1, ih]

theorem setO_eq_of_getO {α : Type} (o : Obj α) (k : String) (v : α)
    (h : getO o k = some v) : setO o k v = o := by
  induction o with
  | nil => simp [getO] at h
  | cons p rest ih =>
    obtain ⟨k₀, v₀⟩ := p
    by_cases h0 : k₀ = k
    · simp only [getO, if_pos h0] at h
      cases h
      simp [setO, h0]
    · simp only [getO, if_neg h0] at h
      simp [setO, h0, ih h]

theorem getO_eq_none_of_not_mem {α : Type} (o : Obj α) (k : String)
    (h : k ∉ objKeys o) : getO o k = none := by
  induction o with
  | nil => rfl
  | cons p rest ih =>
    obtain ⟨k₀, v₀⟩ := p
    simp only [objKeys, List.map_cons, List.mem_cons, not_or] at h
    have h0 : ¬ k₀ = k := fun h' => h.1 h'.symm
    simp only [getO, if_neg h0]
    exact ih h.2

/-! ## Price trees

`prices[vendor][type][finish][date] = value` (MTGJSON paper-price shape).
Levels from the leaves up: a `DateMap` maps `YYYY-MM-DD` dates to numeric
prices, a `FinishMap` maps finishes to date maps, a `TypeMap` maps
transaction types to finish maps, and a `PriceTree` maps vendors to type
maps. -/

abbrev DateMap : Type := Obj Int
abbrev FinishMap : Type := Obj DateMap
abbrev TypeMap : Type := Obj FinishMap
abbrev PriceTree : Type := Obj TypeMap

/-- All four levels of a price tree are genuine JS objects (no duplicate
keys anywhere); every tree obtained from `JSON.parse` satisfies this. -/
def WFDateMap (m : DateMap) : Prop := nodupKeys m

def WFFinishMap (m : FinishMap) : Prop :=
  nodupKeys m ∧ ∀ p ∈ m, WFDateMap p.2

def WFTypeMap (m : TypeMap) : Prop :=
  nodupKeys m ∧ ∀ p ∈ m, WFFinishMap p.2

def WFPriceTree (t : PriceTree) : Prop :=
  nodupKeys t ∧ ∀ p ∈ t, WFTypeMap p.2

instance (m : DateMap) : Decidable (WFDateMap m) := by
  unfold WFDateMap; infer_instance

instance (m : FinishMap) : Decidable (WFFinishMap m) := by
  unfold WFFinishMap; exact instDecidableAnd

instance (m : TypeMap) : Decidable (WFTypeMap m) := by
  unfold WFTypeMap; exact instDecidableAnd

instance (t : PriceTree) : Decidable (WFPriceTree t) := by
  unfold WFPriceTree; exact instDecidableAnd

/-- Path lookup `t[vendor][type][finish][date]`. -/
def lookupPrice (t : PriceTree) (vendor ty finish date : String) : Option Int :=
  (getO t vendor).bind fun tm =>
    (getO tm ty).bind fun fm =>
      (getO fm finish).bind fun dm => getO dm date

/-! ## `mergePriceObjects` (scripts/uploadToMongo.ts, lines 42–57)

```
function mergePriceObjects(existing: any = {}, incoming: any = {}): any {
  const result = JSON.parse(JSON.stringify(existing || {}));
  for (const vendor in incoming) {
    if (!result[vendor]) result[vendor] = {};
    for (const type in incoming[vendor]) {
      if (!result[vendor][type]) result[vendor][type] = {};
      for (const finish in incoming[vendor][type]) {
        if (!result[vendor][type][finish]) result[vendor][type][finish] = {};
        for (const date in incoming[vendor][type][finish]) {
          result[vendor][type][finish][date] = incoming[vendor][type][finish][date];
        }
      }
    }
  }
  return result;
}
```

In the pure value model the `JSON.parse(JSON.stringify ...)` deep clone is
the identity (its heap-level content — freshness of the returned tree — is
dealt with separately by the heap embedding further down).  Each loop level
ensures the key exists (`if (!r[k]) r[k] = {}` appends an empty object) and
then merges into what is stored there, which is exactly
`setO r k (mergeLevel ((getO r k).getD []) v)`. -/

def mergeDateMaps (result incoming : DateMap) : DateMap :=
  incoming.foldl (fun r p => setO r p.1 p.2) result

def mergeFinishMaps (result incoming : FinishMap) : FinishMap :=
  incoming.foldl (fun r p => setO r p.1 (mergeDateMaps ((getO r p.1).getD []) p.2)) result

def mergeTypeMaps (result incoming : TypeMap) : TypeMap :=
  incoming.foldl (fun r p => setO r p.1 (mergeFinishMaps ((getO r p.1).getD []) p.2)) result

def mergePriceObjects (existing incoming : PriceTree) : PriceTree :=
  incoming.foldl (fun r p => setO r p.1 (mergeTypeMaps ((getO r p.1).getD []) p.2)) existing

/-- The call site `mergePriceObjects(existing?.prices, card.prices)` together
with the defaulting `existing: any = {}` / `existing || {}`: a missing or
null prior history is treated as the empty tree. -/
def mergePriceObjectsOpt (existing : Option PriceTree) (incoming : PriceTree) : PriceTree :=
  mergePriceObjects (existing.getD []) incoming

theorem mem_of_getO {α : Type} {o : Obj α} {k : String} {x : α}
    (h : getO o k = some x) : (k, x) ∈ o := by
  induction o with
  | nil => simp [getO] at h
  | cons p rest ih =>
    obtain ⟨k₀, v₀⟩ := p
    by_cases h0 : k₀ = k
    · simp only [getO, if_pos h0] at h
      cases h
      subst h0
      exact List.mem_cons_self _ _
    · simp only [getO, if_neg h0] at h
      exact List.mem_cons_of_mem _ (ih h)

/-- All three upper levels of `mergePriceObjects` share the loop shape
`for k in incoming { if (!r[k]) r[k] = {}; merge into r[k] }`, i.e. a fold
of `setO r k (g (getO r k) v)`.  Reading any key of the folded result:
keys of the incoming object carry the merged value, all others are
untouched. -/
theorem getO_mergeFold {α β : Type} (g : Option α → β → α) (inc : Obj β)
    (r : Obj α) (hn : nodupKeys inc) (k : String) :
    getO (inc.foldl (fun r p => setO r p.1 (g (getO r p.1) p.2)) r) k
      = match getO inc k with
        | some b => some (g (getO r k) b)
        | none => getO r k := by
  induction inc generalizing r with
  | nil => rfl
  | cons p rest ih =>
    obtain ⟨k₀, b₀⟩ := p
    have hnr : nodupKeys rest := (List.nodup_cons.mp hn).2
    have hk0 : k₀ ∉ objKeys rest := (List.nodup_cons.mp hn).1
    simp only [List.foldl_cons]
    rw [ih _ hnr]
    by_cases hk : k₀ = k
    · subst hk
      rw [getO_eq_none_of_not_mem rest k₀ hk0]
      simp only [getO, if_pos rfl]
      rw [getO_setO]
      simp
    · simp only [getO, if_neg hk]
      cases hrest : getO rest k with
      | some b => rw [getO_setO]; simp [hk]
      | none => rw [getO_setO]; simp [hk]

/-- The same fold shape is idempotent provided the per-key merge `g` is
idempotent on well-formed incoming values. -/
theorem mergeFold_idem {α β : Type} (g : Option α → β → α) (P : β → Prop)
    (hg : ∀ cur b, P b → g (some (g cur b)) b = g cur b)
    (inc : Obj β) (hn : nodupKeys inc) (hP : ∀ p ∈ inc, P p.2) (r : Obj α) :
    inc.foldl (fun r p => setO r p.1 (g (getO r p.1) p.2))
        (inc.foldl (fun r p => setO r p.1 (g (getO r p.1) p.2)) r)
      = inc.foldl (fun r p => setO r p.1 (g (getO r p.1) p.2)) r := by
  induction inc generalizing r with
  | nil => rfl
  | cons p rest ih =>
    obtain ⟨k₀, b₀⟩ := p
    have hnr : nodupKeys rest := (List.nodup_cons.mp hn).2
    have hk0 : k₀ ∉ objKeys rest := (List.nodup_cons.mp hn).1
    have hPb : P b₀ := hP (k₀, b₀) (List.mem_cons_self _ _)
    have hPr : ∀ p ∈ rest, P p.2 := fun p hp => hP p (List.mem_cons_of_mem _ hp)
    simp only [List.foldl_cons]
    set r1 := setO r k₀ (g (getO r k₀) b₀) with hr1
    have hget : getO (rest.foldl (fun r p => setO r p.1 (g (getO r p.1) p.2)) r1) k₀
        = some (g (getO r k₀) b₀) := by
      rw [getO_mergeFold g rest r1 hnr]
      rw [getO_eq_none_of_not_mem rest k₀ hk0]
      rw [hr1, getO_setO]
      simp
    rw [hget, hg _ _ hPb, setO_eq_of_getO _ _ _ hget]
    exact ih hnr hPr r1

theorem mergeDateMaps_idem {i : DateMap} (hn : nodupKeys i) (e : DateMap) :
    mergeDateMaps (mergeDateMaps e i) i = mergeDateMaps e i :=
  mergeFold_idem (fun _ v => v) (fun _ => True) (fun _ _ _ => rfl) i hn
    (fun _ _ => trivial) e

theorem mergeFinishMaps_idem {i : FinishMap} (hw : WFFinishMap i) (e : FinishMap) :
    mergeFinishMaps (mergeFinishMaps e i) i = mergeFinishMaps e i :=
  mergeFold_idem (fun cur dm => mergeDateMaps (cur.getD []) dm) WFDateMap
    (fun cur _dm hdm => mergeDateMaps_idem hdm (cur.getD []))
    i hw.1 (fun p hp => hw.2 p hp) e

theorem mergeTypeMaps_idem {i : TypeMap} (hw : WFTypeMap i) (e : TypeMap) :
    mergeTypeMaps (mergeTypeMaps e i) i = mergeTypeMaps e i :=
  mergeFold_idem (fun cur fm => mergeFinishMaps (cur.getD []) fm) WFFinishMap
    (fun cur _fm hfm => mergeFinishMaps_idem hfm (cur.getD []))
    i hw.1 (fun p hp => hw.2 p hp) e

theorem mergePriceObjects_idem {i : PriceTree} (hw : WFPriceTree i) (e : PriceTree) :
    mergePriceObjects (mergePriceObjects e i) i = mergePriceObjects e i :=
  mergeFold_idem (fun cur tm => mergeTypeMaps (cur.getD []) tm) WFTypeMap
    (fun cur _tm htm => mergeTypeMaps_idem htm (cur.getD []))
    i hw.1 (fun p hp => hw.2 p hp) e

/-! ### Pointwise characterisation of the merged tree -/

theorem getO_mergeDateMaps (e i : DateMap) (hn : nodupKeys i) (d : String) :
    getO (mergeDateMaps e i) d
      = match getO i d with
        | some x => some x
        | none => getO e d := by
  have h := getO_mergeFold (fun _ v => v) i e hn d
  unfold mergeDateMaps
  cases hv : getO i d <;> simp only [hv] at h ⊢ <;> exact h

theorem getO_mergeFinishMaps (e i : FinishMap) (hn : nodupKeys i) (f : String) :
    getO (mergeFinishMaps e i) f
      = match getO i f with
        | some dm => some (mergeDateMaps ((getO e f).getD []) dm)
        | none => getO e f := by
  have h := getO_mergeFold (fun cur dm => mergeDateMaps (cur.getD []) dm) i e hn f
  unfold mergeFinishMaps
  cases hv : getO i f <;> simp only [hv] at h ⊢ <;> exact h

theorem getO_mergeTypeMaps (e i : TypeMap) (hn : nodupKeys i) (ty : String) :
    getO (mergeTypeMaps e i) ty
      = match getO i ty with
        | some fm => some (mergeFinishMaps ((getO e ty).getD []) fm)
        | none => getO e ty := by
  have h := getO_mergeFold (fun cur fm => mergeFinishMaps (cur.getD []) fm) i e hn ty
  unfold mergeTypeMaps
  cases hv : getO i ty <;> simp only [hv] at h ⊢ <;> exact h

theorem getO_mergePriceObjects (e i : PriceTree) (hn : nodupKeys i) (v : String) :
    getO (mergePriceObjects e i) v
      = match getO i v with
        | some tm => some (mergeTypeMaps ((getO e v).getD []) tm)
        | none => getO e v := by
  have h := getO_mergeFold (fun cur tm => mergeTypeMaps (cur.getD []) tm) i e hn v
  unfold mergePriceObjects
  cases hv : getO i v <;> simp only [hv] at h ⊢ <;> exact h

/-- Date-level lookup under a finish map: `fm[finish][date]`. -/
def lookupFM (fm : FinishMap) (f d : String) : Option Int :=
  (getO fm f).bind fun dm => getO dm d

/-- Lookup under a type map: `tm[type][finish][date]`. -/
def lookupTM (tm : TypeMap) (ty f d : String) : Option Int :=
  (getO tm ty).bind fun fm => lookupFM fm f d

theorem lookupFM_merge (e i : FinishMap) (hw : WFFinishMap i) (f d : String) :
    lookupFM (mergeFinishMaps e i) f d
      = match lookupFM i f d with
        | some x => some x
        | none => lookupFM e f d := by
  unfold lookupFM
  rw [getO_mergeFinishMaps e i hw.1]
  cases hif : getO i f with
  | none => cases getO e f <;> rfl
  | some idm =>
    have hidm : nodupKeys idm := hw.2 (f, idm) (mem_of_getO hif)
    simp only [Option.some_bind]
    rw [getO_mergeDateMaps _ idm hidm]
    cases hid : getO idm d with
    | some x => rfl
    | none => cases getO e f <;> simp [getO]

theorem lookupTM_merge (e i : TypeMap) (hw : WFTypeMap i) (ty f d : String) :
    lookupTM (mergeTypeMaps e i) ty f d
      = match lookupTM i ty f d with
        | some x => some x
        | none => lookupTM e ty f d := by
  unfold lookupTM
  rw [getO_mergeTypeMaps e i hw.1]
  cases hity : getO i ty with
  | none => cases getO e ty <;> rfl
  | some ifm =>
    have hifm : WFFinishMap ifm := hw.2 (ty, ifm) (mem_of_getO hity)
    simp only [Option.some_bind]
    rw [lookupFM_merge _ ifm hifm]
    cases hif : lookupFM ifm f d with
    | some x => rfl
    | none => cases getO e ty <;> simp [lookupFM, getO]

theorem lookupPrice_merge (e i : PriceTree) (hw : WFPriceTree i) (v ty f d : String) :
    lookupPrice (mergePriceObjects e i) v ty f d
      = match lookupPrice i v ty f d with
        | some x => some x
        | none => lookupPrice e v ty f d := by
  have heq : ∀ t : PriceTree, lookupPrice t v ty f d = (getO t v).bind fun tm => lookupTM tm ty f d := by
    intro t; rfl
  rw [heq, heq, heq]
  rw [getO_mergePriceObjects e i hw.1]
  cases hiv : getO i v with
  | none => cases getO e v <;> rfl
  | some itm =>
    have hitm : WFTypeMap itm := hw.2 (v, itm) (mem_of_getO hiv)
    simp only [Option.some_bind]
    rw [lookupTM_merge _ itm hitm]
    cases hit : lookupTM itm ty f d with
    | some x => rfl
    | none => cases getO e v <;> simp [lookupTM, lookupFM, getO]

/-! ## Claims about the history deep-merge -/

/-- The spec's running example: existing stored history
`{tcgplayer:{retail:{normal:{"2024-01-01":5}}}}`. -/
def exHist : PriceTree :=
  [("tcgplayer", [("retail", [("normal", [("2024-01-01", (5 : Int))])])])]

/-- The spec's running example: incoming snapshot
`{tcgplayer:{retail:{normal:{"2024-01-02":6}}}}`. -/
def incSnap : PriceTree :=
  [("tcgplayer", [("retail", [("normal", [("2024-01-02", (6 : Int))])])])]

/-- **C1**: for every existing price history (a missing/null prior history
treated as the empty tree) and every incoming `PriceSnapshot`, the deep
merge returns a tree in which `result[vendor][type][finish][date]` equals
the incoming value on every path present in the incoming snapshot, equals
the existing value on every path present only in the existing history, and
loses no date present in the existing history. -/
theorem mergePriceObjects_deep_merge
    (existing : Option PriceTree) (incoming : PriceTree)
    (hw : WFPriceTree incoming) (v ty f d : String) :
    (∀ x : Int, lookupPrice incoming v ty f d = some x →
      lookupPrice (mergePriceObjectsOpt existing incoming) v ty f d = some x)
    ∧ (lookupPrice incoming v ty f d = none →
      lookupPrice (mergePriceObjectsOpt existing incoming) v ty f d
        = lookupPrice (existing.getD []) v ty f d)
    ∧ (∀ x : Int, lookupPrice (existing.getD []) v ty f d = some x →
      (lookupPrice (mergePriceObjectsOpt existing incoming) v ty f d).isSome = true) := by
  have h := lookupPrice_merge (existing.getD []) incoming hw v ty f d
  unfold mergePriceObjectsOpt
  refine ⟨?_, ?_, ?_⟩
  · intro x hx
    rw [h, hx]
  · intro hx
    rw [h, hx]
  · intro x hx
    rw [h]
    cases hi : lookupPrice incoming v ty f d with
    | some y => simp
    | none => simp [hx]

theorem mergePriceObjects_deep_merge_witness :
    WFPriceTree incSnap
    ∧ lookupPrice (mergePriceObjectsOpt (some exHist) incSnap)
        "tcgplayer" "retail" "normal" "2024-01-02" = some 6 :=
  ⟨by decide,
    (mergePriceObjects_deep_merge (some exHist) incSnap (by decide)
      "tcgplayer" "retail" "normal" "2024-01-02").1 6 (by decide)⟩

/-- **C3**: the deep merge is idempotent in its incoming argument:
merging the same snapshot twice gives the same final state as merging it
once; in particular (spec example) merging `exHist` with `incSnap` keeps
both dates. -/
theorem mergePriceObjects_incoming_idempotent :
    (∀ (existing incoming : PriceTree), WFPriceTree incoming →
      mergePriceObjects (mergePriceObjects existing incoming) incoming
        = mergePriceObjects existing incoming)
    ∧ lookupPrice (mergePriceObjects exHist incSnap)
        "tcgplayer" "retail" "normal" "2024-01-01" = some 5
    ∧ lookupPrice (mergePriceObjects exHist incSnap)
        "tcgplayer" "retail" "normal" "2024-01-02" = some 6 :=
  ⟨fun e i hw => mergePriceObjects_idem hw e, by decide, by decide⟩

theorem mergePriceObjects_incoming_idempotent_witness :
    WFPriceTree incSnap
    ∧ mergePriceObjects (mergePriceObjects exHist incSnap) incSnap
        = mergePriceObjects exHist incSnap :=
  ⟨by decide, mergePriceObjects_incoming_idempotent.1 exHist incSnap (by decide)⟩

/-- **C10**: the empty snapshot is a right identity of the deep merge:
merging an empty incoming snapshot returns the existing history unchanged
(the fold over the incoming object's keys has nothing to do). -/
theorem mergePriceObjects_empty_incoming (existing : PriceTree) :
    mergePriceObjects existing [] = existing := rfl

/-! ## JavaScript string comparison

JS compares strings (`<`, and the default `Array.prototype.sort`
comparator) lexicographically by UTF-16 code unit.  For the code points
handled here that is lexicographic comparison of the lists of code
points. -/

def lexN : List Nat → List Nat → Ordering
  | [], [] => .eq
  | [], _ :: _ => .lt
  | _ :: _, [] => .gt
  | a :: as, b :: bs =>
    match compare a b with
    | .eq => lexN as bs
    | o => o

theorem lexN_eq_iff : ∀ {x y : List Nat}, lexN x y = .eq ↔ x = y := by
  intro x
  induction x with
  | nil =>
    intro y
    cases y with
    | nil => simp [lexN]
    | cons b bs => simp [lexN]
  | cons a as ih =>
    intro y
    cases y with
    | nil => simp [lexN]
    | cons b bs =>
      simp only [lexN]
      cases hab : compare a b with
      | eq =>
        have hab' : a = b := Nat.compare_eq_eq.mp hab
        subst hab'
        simp [ih]
      | lt =>
        have hab' : a < b := Nat.compare_eq_lt.mp hab
        simp only [List.cons.injEq]
        constructor
        · intro h; cases h
        · rintro ⟨h, -⟩; omega
      | gt =>
        have hab' : b < a := Nat.compare_eq_gt.mp hab
        simp only [List.cons.injEq]
        constructor
        · intro h; cases h
        · rintro ⟨h, -⟩; omega

theorem lexN_swap : ∀ (x y : List Nat), (lexN x y).swap = lexN y x := by
  intro x
  induction x with
  | nil =>
    intro y
    cases y <;> rfl
  | cons a as ih =>
    intro y
    cases y with
    | nil => rfl
    | cons b bs =>
      simp only [lexN]
      cases hab : compare a b with
      | eq =>
        have : a = b := Nat.compare_eq_eq.mp hab
        subst this
        rw [Nat.compare_eq_eq.mpr rfl]
        exact ih bs
      | lt =>
        have h1 : a < b := Nat.compare_eq_lt.mp hab
        rw [Nat.compare_eq_gt.mpr h1]
        rfl
      | gt =>
        have h1 : b < a := Nat.compare_eq_gt.mp hab
        rw [Nat.compare_eq_lt.mpr h1]
        rfl

theorem lexN_lt_trans : ∀ {x y z : List Nat},
    lexN x y = .lt → lexN y z = .lt → lexN x z = .lt := by
  intro x
  induction x with
  | nil =>
    intro y z h1 h2
    cases y with
    | nil => exact h2
    | cons b bs =>
      cases z with
      | nil => simp [lexN] at h2
      | cons c cs => rfl
  | cons a as ih =>
    intro y z h1 h2
    cases y with
    | nil => simp [lexN] at h1
    | cons b bs =>
      cases z with
      | nil => simp [lexN] at h2
      | cons c cs =>
        simp only [lexN] at h1 h2 ⊢
        cases hab : compare a b with
        | gt => rw [hab] at h1; cases h1
        | lt =>
          have h1' : a < b := Nat.compare_eq_lt.mp hab
          cases hbc : compare b c with
          | gt => rw [hbc] at h2; cases h2
          | lt =>
            have h2' : b < c := Nat.compare_eq_lt.mp hbc
            rw [Nat.compare_eq_lt.mpr (Nat.lt_trans h1' h2')]
          | eq =>
            have h2' : b = c := Nat.compare_eq_eq.mp hbc
            subst h2'
            rw [hab]
        | eq =>
          have hab' : a = b := Nat.compare_eq_eq.mp hab
          subst hab'
          rw [hab] at h1
          cases hbc : compare a c with
          | gt => rw [hbc] at h2; cases h2
          | lt => rfl
          | eq =>
            have hbc' : a = c := Nat.compare_eq_eq.mp hbc
            subst hbc'
            rw [hbc] at h2
            exact ih h1 h2

theorem lexN_le_trans {x y z : List Nat}
    (h1 : lexN x y ≠ .gt) (h2 : lexN y z ≠ .gt) : lexN x z ≠ .gt := by
  cases hxy : lexN x y with
  | gt => exact absurd hxy h1
  | eq =>
    have : x = y := lexN_eq_iff.mp hxy
    subst this
    exact h2
  | lt =>
    cases hyz : lexN y z with
    | gt => exact absurd hyz h2
    | eq =>
      have : y = z := lexN_eq_iff.mp hyz
      subst this
      rw [hxy]
      simp
    | lt =>
      rw [lexN_lt_trans hxy hyz]
      simp

theorem lexN_le_total (x y : List Nat) : lexN x y ≠ .gt ∨ lexN y x ≠ .gt := by
  cases hxy : lexN x y with
  | lt => left; simp
  | eq => left; simp
  | gt =>
    right
    rw [← lexN_swap x y, hxy]
    simp [Ordering.swap]

/-- UTF-16 code-unit comparison of two JS strings (all identifiers and
date keys in this pipeline are ASCII, where code units, code points and
UTF-8 bytes coincide). -/
def strCompare (a b : String) : Ordering :=
  lexN (a.toList.map Char.toNat) (b.toList.map Char.toNat)

/-- The JS `<` operator on strings. -/
def strLt (a b : String) : Bool := decide (strCompare a b = .lt)

/-- `a ≤ b` in JS string order (the non-strict companion of `strLt`). -/
def strLe (a b : String) : Bool := decide (strCompare a b ≠ .gt)

theorem charToNat_injective : Function.Injective Char.toNat := by
  intro a b h
  have ha := Char.ofNat_toNat a
  rw [h, Char.ofNat_toNat] at ha
  exact ha.symm

theorem strCompare_eq_iff {a b : String} : strCompare a b = .eq ↔ a = b := by
  unfold strCompare
  rw [lexN_eq_iff]
  constructor
  · intro h
    have h1 : a.toList = b.toList :=
      (List.map_injective_iff.mpr charToNat_injective) h
    cases a with
    | mk da =>
      cases b with
      | mk db => exact congrArg String.mk h1
  · intro h; rw [h]

theorem strLe_trans {a b c : String} (h1 : strLe a b = true)
    (h2 : strLe b c = true) : strLe a c = true := by
  simp only [strLe, decide_eq_true_iff] at h1 h2 ⊢
  exact lexN_le_trans h1 h2

theorem strLe_total (a b : String) : (strLe a b || strLe b a) = true := by
  simp only [strLe, Bool.or_eq_true, decide_eq_true_iff]
  exact lexN_le_total _ _

theorem strLt_or_eq_of_strLe {a b : String} (h : strLe a b = true) :
    strLt a b = true ∨ a = b := by
  simp only [strLe, decide_eq_true_iff] at h
  cases hc : strCompare a b with
  | lt => left; simp [strLt, hc]
  | eq => right; exact strCompare_eq_iff.mp hc
  | gt => exact absurd hc h

theorem eq_of_not_strLt {a b : String} (h1 : strLt a b = false)
    (h2 : strLt b a = false) : a = b := by
  simp only [strLt, decide_eq_false_iff_not] at h1 h2
  cases hc : strCompare a b with
  | lt => exact absurd hc h1
  | eq => exact strCompare_eq_iff.mp hc
  | gt =>
    exfalso
    apply h2
    have hswap := lexN_swap (a.toList.map Char.toNat) (b.toList.map Char.toNat)
    unfold strCompare at hc ⊢
    rw [hc] at hswap
    exact hswap.symm

theorem strLt_trans {a b c : String} (h1 : strLt a b = true)
    (h2 : strLt b c = true) : strLt a c = true := by
  simp only [strLt, decide_eq_true_iff] at h1 h2 ⊢
  exact lexN_lt_trans h1 h2

theorem strLe_of_strLt {a b : String} (h : strLt a b = true) : strLe a b = true := by
  simp only [strLt, decide_eq_true_iff] at h
  simp [strLe, h]

/-! ## A stable sort

`Array.prototype.sort` is specified to produce a stable reordering that is
sorted with respect to the comparator whenever the comparator is a
consistent total preorder.  A stable insertion sort is extensionally equal
to it, and (unlike well-founded merge sorts) evaluates by kernel
reduction. -/

def insertSorted {α : Type} (le : α → α → Bool) (a : α) : List α → List α
  | [] => [a]
  | b :: bs => if le a b then a :: b :: bs else b :: insertSorted le a bs

def sortBy {α : Type} (le : α → α → Bool) (l : List α) : List α :=
  l.foldr (insertSorted le) []

theorem insertSorted_perm {α : Type} (le : α → α → Bool) (a : α) (l : List α) :
    (insertSorted le a l).Perm (a :: l) := by
  induction l with
  | nil => exact List.Perm.refl _
  | cons b bs ih =>
    by_cases h : le a b = true
    · simp [insertSorted, h]
    · simp only [insertSorted, h]
      rw [if_neg]
      · exact (ih.cons b).trans (List.Perm.swap a b bs)
      · simp [h]

theorem sortBy_perm {α : Type} (le : α → α → Bool) (l : List α) :
    (sortBy le l).Perm l := by
  induction l with
  | nil => exact List.Perm.refl _
  | cons a as ih =>
    exact (insertSorted_perm le a (sortBy le as)).trans (ih.cons a)

theorem mem_insertSorted {α : Type} {le : α → α → Bool} {a x : α} {l : List α} :
    x ∈ insertSorted le a l ↔ x = a ∨ x ∈ l := by
  rw [(insertSorted_perm le a l).mem_iff]
  simp

theorem insertSorted_pairwise {α : Type} {le : α → α → Bool}
    (htot : ∀ a b, (le a b || le b a) = true)
    (htrans : ∀ {a b c}, le a b = true → le b c = true → le a c = true)
    {l : List α} (a : α) (hl : l.Pairwise (fun x y => le x y = true)) :
    (insertSorted le a l).Pairwise (fun x y => le x y = true) := by
  induction l with
  | nil => simp [insertSorted]
  | cons b bs ih =>
    rcases List.pairwise_cons.mp hl with ⟨hb, hbs⟩
    by_cases h : le a b = true
    · simp only [insertSorted, if_pos h]
      refine List.pairwise_cons.mpr ⟨?_, hl⟩
      intro x hx
      rcases List.mem_cons.mp hx with rfl | hx
      · exact h
      · exact htrans h (hb x hx)
    · simp only [insertSorted, if_neg h]
      refine List.pairwise_cons.mpr ⟨?_, ih hbs⟩
      intro x hx
      rcases mem_insertSorted.mp hx with rfl | hx
      · have := htot x b
        simp [h] at this
        exact this
      · exact hb x hx

theorem sortBy_pairwise {α : Type} {le : α → α → Bool}
    (htot : ∀ a b, (le a b || le b a) = true)
    (htrans : ∀ {a b c}, le a b = true → le b c = true → le a c = true)
    (l : List α) :
    (sortBy le l).Pairwise (fun x y => le x y = true) := by
  induction l with
  | nil => simp [sortBy]
  | cons a as ih => exact insertSorted_pairwise htot htrans a ih

theorem getLast?_mem {α : Type} {l : List α} {a : α}
    (h : l.getLast? = some a) : a ∈ l := by
  rcases List.getLast?_eq_some_iff.mp h with ⟨ys, rfl⟩
  simp

theorem pairwise_rel_getLast {α : Type} {R : α → α → Prop} {l : List α} {a : α}
    (hp : l.Pairwise R) (h : l.getLast? = some a) :
    ∀ x ∈ l, x = a ∨ R x a := by
  rcases List.getLast?_eq_some_iff.mp h with ⟨ys, rfl⟩
  intro x hx
  rcases List.mem_append.mp hx with hx | hx
  · right
    exact (List.pairwise_append.mp hp).2.2 x hx a (List.mem_singleton_self a)
  · left
    simpa using hx

/-! ## `parsePrices.ts`: latest-date selection (lines 65–68 and 97–139)

```
function getMostRecentDate(obj: Record<string, number>): string | null {
  const dates = Object.keys(obj).filter((d) => /^\d{4}-\d{2}-\d{2}$/.test(d));
  return dates.sort().reverse()[0] ?? null;
}
```
`sort()` with no comparator sorts strings ascending by UTF-16 code
units, i.e. by `strLe`. -/

/-- The regular expression `^\d{4}-\d{2}-\d{2}$`. -/
def isDateKey (s : String) : Bool :=
  match s.toList with
  | [y1, y2, y3, y4, s1, m1, m2, s2, d1, d2] =>
    y1.isDigit && y2.isDigit && y3.isDigit && y4.isDigit && s1 == '-' &&
      m1.isDigit && m2.isDigit && s2 == '-' && d1.isDigit && d2.isDigit
  | _ => false

def getMostRecentDate (obj : DateMap) : Option String :=
  ((sortBy strLe ((objKeys obj).filter isDateKey)).reverse).head?

/-- The per-(vendor,type,finish) body of the `parsePrices` loop
(lines 118–129): look up the most recent date and keep that single
(date, price) pair, or nothing when no date qualifies. -/
def selectLatest (finishData : DateMap) : Option (String × Int) :=
  match getMostRecentDate finishData with
  | none => none
  | some d =>
    match getO finishData d with
    | some p => some (d, p)
    | none => none

theorem strLe_refl (a : String) : strLe a a = true := by
  have h : strCompare a a = .eq := strCompare_eq_iff.mpr rfl
  simp [strLe, h]

theorem getO_isSome_of_mem {α : Type} {o : Obj α} {k : String}
    (h : k ∈ objKeys o) : ∃ x, getO o k = some x := by
  induction o with
  | nil => simp [objKeys] at h
  | cons p rest ih =>
    obtain ⟨k₀, v₀⟩ := p
    by_cases h0 : k₀ = k
    · exact ⟨v₀, by simp [getO, h0]⟩
    · simp only [objKeys, List.map_cons, List.mem_cons] at h
      rcases h with rfl | h
      · exact absurd rfl h0
      · rcases ih h with ⟨x, hx⟩
        exact ⟨x, by simp [getO, h0, hx]⟩

theorem getMostRecentDate_some {m : DateMap} {d : String}
    (h : getMostRecentDate m = some d) :
    isDateKey d = true ∧ d ∈ objKeys m
      ∧ ∀ k ∈ objKeys m, isDateKey k = true → strLe k d = true := by
  unfold getMostRecentDate at h
  rw [List.head?_reverse] at h
  have hperm := sortBy_perm strLe ((objKeys m).filter isDateKey)
  have hsorted := sortBy_pairwise strLe_total (fun h1 h2 => strLe_trans h1 h2)
    ((objKeys m).filter isDateKey)
  have hd : d ∈ sortBy strLe ((objKeys m).filter isDateKey) := getLast?_mem h
  have hdf : d ∈ (objKeys m).filter isDateKey := hperm.mem_iff.mp hd
  have hdk : isDateKey d = true := (List.mem_filter.mp hdf).2
  have hdm : d ∈ objKeys m := (List.mem_filter.mp hdf).1
  refine ⟨hdk, hdm, ?_⟩
  intro k hk hkd
  have hkf : k ∈ sortBy strLe ((objKeys m).filter isDateKey) :=
    hperm.mem_iff.mpr (List.mem_filter.mpr ⟨hk, hkd⟩)
  rcases pairwise_rel_getLast hsorted h k hkf with rfl | hle
  · exact strLe_refl k
  · exact hle

theorem getMostRecentDate_none {m : DateMap}
    (h : getMostRecentDate m = none) :
    ∀ k ∈ objKeys m, isDateKey k = false := by
  unfold getMostRecentDate at h
  rw [List.head?_reverse] at h
  have hnil : sortBy strLe ((objKeys m).filter isDateKey) = [] := by
    cases hs : sortBy strLe ((objKeys m).filter isDateKey) with
    | nil => rfl
    | cons a as =>
      rw [hs] at h
      rcases List.getLast?_eq_none_iff.mp h with h'
      cases h'
  have hfilter : (objKeys m).filter isDateKey = [] := by
    have := (sortBy_perm strLe ((objKeys m).filter isDateKey)).symm
    rw [hnil] at this
    exact List.perm_nil.mp this
  intro k hk
  by_contra hcon
  have hkd : isDateKey k = true := by
    cases hkk : isDateKey k
    · exact absurd hkk hcon
    · rfl
  have : k ∈ (objKeys m).filter isDateKey := List.mem_filter.mpr ⟨hk, hkd⟩
  rw [hfilter] at this
  cases this

/-- **C5**: for every per-(vendor,type,finish) date→price map, the Price
Extractor retains exactly the pair with the lexicographically greatest
date key matching `YYYY-MM-DD`; non-matching keys are never selected, a
map with no matching key contributes nothing, and on the spec's example
only `{"2024-01-03": 12}` is kept. -/
theorem parsePrices_latest_date_selection (m : DateMap) :
    (∀ (d : String) (v : Int), selectLatest m = some (d, v) →
      isDateKey d = true ∧ getO m d = some v
        ∧ ∀ p ∈ m, isDateKey p.1 = true → strLe p.1 d = true)
    ∧ (selectLatest m = none → ∀ p ∈ m, isDateKey p.1 = false)
    ∧ selectLatest [("2024-01-01", (10 : Int)), ("2024-01-03", 12), ("2024-01-02", 11)]
        = some ("2024-01-03", 12) := by
  refine ⟨?_, ?_, by decide⟩
  · intro d v hsel
    unfold selectLatest at hsel
    cases hmd : getMostRecentDate m with
    | none => simp only [hmd] at hsel; cases hsel
    | some d' =>
      simp only [hmd] at hsel
      rcases getMostRecentDate_some hmd with ⟨hk, hmem, hmax⟩
      cases hg : getO m d' with
      | none => simp only [hg] at hsel; cases hsel
      | some p =>
        simp only [hg] at hsel
        rcases hsel with ⟨rfl, rfl⟩
        refine ⟨hk, hg, ?_⟩
        intro q hq hqd
        exact hmax q.1 (List.mem_map.mpr ⟨q, hq, rfl⟩) hqd
  · intro hsel q hq
    unfold selectLatest at hsel
    cases hmd : getMostRecentDate m with
    | some d' =>
      rcases getMostRecentDate_some hmd with ⟨hk, hmem, hmax⟩
      rcases getO_isSome_of_mem hmem with ⟨x, hx⟩
      simp only [hmd, hx] at hsel
      cases hsel
    | none =>
      exact getMostRecentDate_none hmd q.1 (List.mem_map.mpr ⟨q, hq, rfl⟩)

theorem parsePrices_latest_date_selection_witness :
    isDateKey "2024-01-03" = true
    ∧ getO [("2024-01-01", (10 : Int)), ("2024-01-03", 12), ("2024-01-02", 11)]
        "2024-01-03" = some 12
    ∧ ∀ p ∈ [("2024-01-01", (10 : Int)), ("2024-01-03", 12), ("2024-01-02", 11)],
        isDateKey p.1 = true → strLe p.1 "2024-01-03" = true :=
  (parsePrices_latest_date_selection
    [("2024-01-01", (10 : Int)), ("2024-01-03", 12), ("2024-01-02", 11)]).1
    "2024-01-03" 12 (by decide)

/-! ## `parsePrices.ts`: the per-entry extraction loops (lines 103–132)

The pipeline callback receives `{ key, value }`; for admissible keys it
builds `pricesToday` by iterating the *fixed* lists of vendors,
transaction types and finishes, reading only `value.paper`.  The entry
value is modelled by its `paper` subtree plus an opaque bag of all other
top-level price groups (`mtgo`, …), which the code never touches. -/

def vendorsList : List String := ["tcgplayer", "cardkingdom", "cardmarket"]

def typesList : List String := ["retail", "buylist"]

def finishesList : List String := ["normal", "foil", "etched"]

structure PriceEntryValue where
  paper : Option PriceTree
  nonPaper : Obj PriceTree

/-- `if (!pricesToday[vendor]) pricesToday[vendor] = {}` … followed by
`pricesToday[vendor][type][finish][mostRecentDate] = price`. -/
def setPath (t : PriceTree) (vendor ty fin date : String) (price : Int) : PriceTree :=
  let tv := (getO t vendor).getD []
  let tf := (getO tv ty).getD []
  let dm := (getO tf fin).getD []
  setO t vendor (setO tv ty (setO tf fin (setO dm date price)))

/-- Innermost loop body (`for (const finish of [...])`). -/
def parseFinishStep (vendor ty : String) (typeData : FinishMap)
    (acc : PriceTree) (fin : String) : PriceTree :=
  match getO typeData fin with
  | none => acc
  | some finishData =>
    match selectLatest finishData with
    | none => acc
    | some (d, price) => setPath acc vendor ty fin d price

/-- Middle loop body (`for (const type of ['retail', 'buylist'])`). -/
def parseTypeStep (vendor : String) (vendorData : TypeMap)
    (acc : PriceTree) (ty : String) : PriceTree :=
  match getO vendorData ty with
  | none => acc
  | some typeData => finishesList.foldl (parseFinishStep vendor ty typeData) acc

/-- Outer loop body (`for (const vendor of [...])`), reading
`value.paper?.[vendor]`. -/
def parseVendorStep (paper : Option PriceTree)
    (acc : PriceTree) (vendor : String) : PriceTree :=
  match paper.bind (fun p => getO p vendor) with
  | none => acc
  | some vendorData => typesList.foldl (parseTypeStep vendor vendorData) acc

/-- The `pricesToday` object built for one entry of `AllPrices.json`
(the NDJSON line is written only when this object is non-empty). -/
def parsePricesEntry (value : PriceEntryValue) : PriceTree :=
  vendorsList.foldl (parseVendorStep value.paper) []

theorem mem_setO {α : Type} {o : Obj α} {k : String} {v : α} {x : String × α} :
    x ∈ setO o k v → x = (k, v) ∨ x ∈ o := by
  induction o with
  | nil =>
    intro h
    simp only [setO, List.mem_singleton] at h
    exact Or.inl h
  | cons p rest ih =>
    intro h
    obtain ⟨k₀, v₀⟩ := p
    by_cases h0 : k₀ = k
    · simp only [setO] at h
      rw [if_pos h0] at h
      rcases List.mem_cons.mp h with h | h
      · exact Or.inl (by rw [h, h0])
      · exact Or.inr (List.mem_cons_of_mem _ h)
    · simp only [setO] at h
      rw [if_neg h0] at h
      rcases List.mem_cons.mp h with h | h
      · exact Or.inr (by rw [h]; exact List.mem_cons_self _ _)
      · rcases ih h with h1 | h1
        · exact Or.inl h1
        · exact Or.inr (List.mem_cons_of_mem _ h1)

def FinishesOk (fm : FinishMap) : Prop := ∀ pf ∈ fm, pf.1 ∈ finishesList

def TypesOk (tm : TypeMap) : Prop :=
  ∀ pt ∈ tm, pt.1 ∈ typesList ∧ FinishesOk pt.2

def VendorsOk (t : PriceTree) : Prop :=
  ∀ pv ∈ t, pv.1 ∈ vendorsList ∧ TypesOk pv.2

theorem foldl_invariant {α β : Type} {P : α → Prop} {Q : β → Prop} (f : α → β → α)
    (hf : ∀ a b, P a → Q b → P (f a b)) :
    ∀ (l : List β), (∀ b ∈ l, Q b) → ∀ a, P a → P (l.foldl f a) := by
  intro l
  induction l with
  | nil => intro _ a ha; exact ha
  | cons b bs ih =>
    intro hQ a ha
    exact ih (fun x hx => hQ x (List.mem_cons_of_mem _ hx)) _
      (hf a b ha (hQ b (List.mem_cons_self _ _)))

theorem finishesOk_setO {fm : FinishMap} {fin : String} {dm : DateMap}
    (h : FinishesOk fm) (hf : fin ∈ finishesList) : FinishesOk (setO fm fin dm) := by
  intro pf hpf
  rcases mem_setO hpf with h1 | h1
  · rw [h1]; exact hf
  · exact h pf h1

theorem typesOk_setO {tm : TypeMap} {ty : String} {fm : FinishMap}
    (h : TypesOk tm) (hty : ty ∈ typesList) (hfm : FinishesOk fm) :
    TypesOk (setO tm ty fm) := by
  intro pt hpt
  rcases mem_setO hpt with h1 | h1
  · rw [h1]; exact ⟨hty, hfm⟩
  · exact h pt h1

theorem typesOk_getD {t : PriceTree} (h : VendorsOk t) (vendor : String) :
    TypesOk ((getO t vendor).getD []) := by
  cases hg : getO t vendor with
  | none => intro pt hpt; cases hpt
  | some tv => exact (h (vendor, tv) (mem_of_getO hg)).2

theorem finishesOk_getD {tm : TypeMap} (h : TypesOk tm) (ty : String) :
    FinishesOk ((getO tm ty).getD []) := by
  cases hg : getO tm ty with
  | none => intro pf hpf; cases hpf
  | some tf => exact (h (ty, tf) (mem_of_getO hg)).2

theorem vendorsOk_setPath {t : PriceTree} (h : VendorsOk t)
    {vendor ty fin date : String} {price : Int}
    (hv : vendor ∈ vendorsList) (hty : ty ∈ typesList) (hf : fin ∈ finishesList) :
    VendorsOk (setPath t vendor ty fin date price) := by
  intro pv hpv
  rcases mem_setO hpv with h1 | h1
  · rw [h1]
    exact ⟨hv, typesOk_setO (typesOk_getD h vendor) hty
      (finishesOk_setO (finishesOk_getD (typesOk_getD h vendor) ty) hf)⟩
  · exact h pv h1

theorem vendorsOk_parseFinishStep {vendor ty : String} (typeData : FinishMap)
    (hv : vendor ∈ vendorsList) (hty : ty ∈ typesList)
    (acc : PriceTree) (fin : String) (hacc : VendorsOk acc)
    (hf : fin ∈ finishesList) :
    VendorsOk (parseFinishStep vendor ty typeData acc fin) := by
  unfold parseFinishStep
  split
  · exact hacc
  · split
    · exact hacc
    · exact vendorsOk_setPath hacc hv hty hf

theorem vendorsOk_parseTypeStep {vendor : String} (vendorData : TypeMap)
    (hv : vendor ∈ vendorsList)
    (acc : PriceTree) (ty : String) (hacc : VendorsOk acc)
    (hty : ty ∈ typesList) :
    VendorsOk (parseTypeStep vendor vendorData acc ty) := by
  unfold parseTypeStep
  split
  · exact hacc
  · exact foldl_invariant (parseFinishStep vendor ty _)
      (fun a b ha hb => vendorsOk_parseFinishStep _ hv hty a b ha hb)
      finishesList (fun b hb => hb) acc hacc

theorem vendorsOk_parseVendorStep (paper : Option PriceTree)
    (acc : PriceTree) (vendor : String) (hacc : VendorsOk acc)
    (hv : vendor ∈ vendorsList) :
    VendorsOk (parseVendorStep paper acc vendor) := by
  unfold parseVendorStep
  split
  · exact hacc
  · exact foldl_invariant (parseTypeStep vendor _)
      (fun a b ha hb => vendorsOk_parseTypeStep _ hv a b ha hb)
      typesList (fun b hb => hb) acc hacc

/-- **C9**: every snapshot emitted by the Price Extractor mentions only
vendors in {tcgplayer, cardkingdom, cardmarket}, transaction types in
{retail, buylist} and finishes in {normal, foil, etched}, and is computed
exclusively from the entry's `paper` subtree (any non-paper price group is
ignored). -/
theorem parsePricesNDJSON_fixed_sets (value : PriceEntryValue) :
    (∀ pv ∈ parsePricesEntry value, pv.1 ∈ vendorsList
      ∧ ∀ pt ∈ pv.2, pt.1 ∈ typesList
        ∧ ∀ pf ∈ pt.2, pf.1 ∈ finishesList)
    ∧ ∀ np : Obj PriceTree,
        parsePricesEntry ⟨value.paper, np⟩ = parsePricesEntry value := by
  constructor
  · have h : VendorsOk (parsePricesEntry value) := by
      unfold parsePricesEntry
      exact foldl_invariant (parseVendorStep value.paper)
        (fun a b ha hb => vendorsOk_parseVendorStep value.paper a b ha hb)
        vendorsList (fun b hb => hb) [] (fun pv hpv => by cases hpv)
    intro pv hpv
    exact ⟨(h pv hpv).1, fun pt hpt => ⟨((h pv hpv).2 pt hpt).1,
      fun pf hpf => ((h pv hpv).2 pt hpt).2 pf hpf⟩⟩
  · intro np
    rfl

/-- Concrete entry: a paper tcgplayer retail price plus an `mtgo` price
group that must be ignored. -/
def sampleEntry : PriceEntryValue :=
  { paper := some [("tcgplayer", [("retail", [("normal", [("2024-01-01", (3 : Int))])])])]
    nonPaper := [("mtgo", [("cardhoarder", [("retail", [("normal", [("2024-01-01", (9 : Int))])])])])] }

theorem parsePricesNDJSON_fixed_sets_witness :
    ("tcgplayer", [("retail", [("normal", [("2024-01-01", (3 : Int))])])])
        ∈ parsePricesEntry sampleEntry
    ∧ "tcgplayer" ∈ vendorsList :=
  ⟨by decide,
    ((parsePricesNDJSON_fixed_sets sampleEntry).1
      ("tcgplayer", [("retail", [("normal", [("2024-01-01", (3 : Int))])])])
      (by decide)).1⟩

/-! ## `parseCards.ts`: the Record Filter (lines 58–79)

Each streamed entry of `AllIdentifiers.json` is kept iff
`value.language === 'English'` and `value.uuid`, `value.name`,
`value.setCode` are all truthy (for the string fields of this feed:
present, non-null and non-empty).  A kept entry is projected onto the
minimal card shape and written as one NDJSON line; `total` counts every
entry seen and `kept` every line written. -/

structure RawEntry where
  language : Option String
  uuid : Option String
  name : Option String
  setCode : Option String
  scryfallId : Option String
  purchaseUrls : Option String
deriving DecidableEq

structure MinimalCard where
  uuid : Option String
  name : Option String
  setCode : Option String
  language : Option String
  scryfallId : Option String
  purchaseUrls : Option String
deriving DecidableEq

/-- JS truthiness of an optional string field (`undefined`/`null`/`''`
are falsy, any other string truthy). -/
def truthy : Option String → Bool
  | none => false
  | some s => !s.isEmpty

/-- The filter condition: not skipped by either early `return`. -/
def keepCard (e : RawEntry) : Bool :=
  (e.language == some "English") && truthy e.uuid && truthy e.name && truthy e.setCode

/-- The projection written for a kept entry. -/
def toMinimalCard (e : RawEntry) : MinimalCard :=
  { uuid := e.uuid, name := e.name, setCode := e.setCode,
    language := e.language, scryfallId := e.scryfallId,
    purchaseUrls := e.purchaseUrls }

/-- One step of the `pipeline.on('data', ...)` callback: bump `total`,
and append one output line (bumping `kept`) iff the entry passes. -/
def parseCardsStep (st : List MinimalCard × Nat × Nat) (e : RawEntry) :
    List MinimalCard × Nat × Nat :=
  let st' := (st.1, st.2.1 + 1, st.2.2)
  if keepCard e then (st'.1 ++ [toMinimalCard e], st'.2.1, st'.2.2 + 1) else st'

/-- The whole stream: output lines, `total`, `kept`. -/
def parseCardsNDJSON (entries : List RawEntry) : List MinimalCard × Nat × Nat :=
  entries.foldl parseCardsStep ([], 0, 0)

theorem parseCardsNDJSON_foldl (entries : List RawEntry) :
    ∀ out total kept,
      entries.foldl parseCardsStep (out, total, kept)
        = (out ++ (entries.filter keepCard).map toMinimalCard,
            total + entries.length,
            kept + ((entries.filter keepCard).map toMinimalCard).length) := by
  induction entries with
  | nil => intro out total kept; simp
  | cons e es ih =>
    intro out total kept
    simp only [List.foldl_cons, parseCardsStep]
    by_cases hk : keepCard e = true
    · rw [if_pos hk, ih]
      simp [List.filter_cons, hk]
      omega
    · rw [if_neg hk, ih]
      have hk' : keepCard e = false := by
        cases hkk : keepCard e
        · rfl
        · exact absurd hkk hk
      simp [List.filter_cons, hk']
      omega

theorem isEmpty_false_iff (s : String) : s.isEmpty = false ↔ s ≠ "" := by
  constructor
  · intro h hcon
    subst hcon
    have he : ("" : String).isEmpty = true := rfl
    rw [he] at h
    cases h
  · intro h
    cases hs : s.isEmpty
    · rfl
    · exact absurd ((String.isEmpty_iff s).mp hs) h

/-- **C7**: the Record Filter emits exactly one `MinimalRecord` line per
raw entry iff the entry's locale is the canonical `'English'` and its
identifier, display name and group code are all present and non-empty;
the reported totals equal the number of entries consumed and lines
written. -/
theorem parseCardsNDJSON_filter (entries : List RawEntry) :
    parseCardsNDJSON entries
      = ((entries.filter keepCard).map toMinimalCard,
          entries.length,
          ((entries.filter keepCard).map toMinimalCard).length)
    ∧ ∀ e : RawEntry, keepCard e = true ↔
        (e.language = some "English"
          ∧ (∃ s, e.uuid = some s ∧ s ≠ "")
          ∧ (∃ s, e.name = some s ∧ s ≠ "")
          ∧ (∃ s, e.setCode = some s ∧ s ≠ "")) := by
  constructor
  · have h := parseCardsNDJSON_foldl entries [] 0 0
    simpa [parseCardsNDJSON] using h
  · intro e
    unfold keepCard
    constructor
    · intro h
      simp only [Bool.and_eq_true, beq_iff_eq] at h
      obtain ⟨⟨⟨hl, hu⟩, hn⟩, hs⟩ := h
      refine ⟨hl, ?_, ?_, ?_⟩
      · cases hus : e.uuid with
        | none => rw [hus] at hu; cases hu
        | some s =>
          rw [hus] at hu
          refine ⟨s, rfl, ?_⟩
          simp only [truthy, Bool.not_eq_true'] at hu
          exact (isEmpty_false_iff s).mp hu
      · cases hns : e.name with
        | none => rw [hns] at hn; cases hn
        | some s =>
          rw [hns] at hn
          refine ⟨s, rfl, ?_⟩
          simp only [truthy, Bool.not_eq_true'] at hn
          exact (isEmpty_false_iff s).mp hn
      · cases hss : e.setCode with
        | none => rw [hss] at hs; cases hs
        | some s =>
          rw [hss] at hs
          refine ⟨s, rfl, ?_⟩
          simp only [truthy, Bool.not_eq_true'] at hs
          exact (isEmpty_false_iff s).mp hs
    · rintro ⟨hl, ⟨su, hu, hu'⟩, ⟨sn, hn, hn'⟩, ⟨ss, hs, hs'⟩⟩
      simp only [Bool.and_eq_true, beq_iff_eq]
      refine ⟨⟨⟨hl, ?_⟩, ?_⟩, ?_⟩
      · rw [hu]; simp [truthy, (isEmpty_false_iff su).mpr hu']
      · rw [hn]; simp [truthy, (isEmpty_false_iff sn).mpr hn']
      · rw [hs]; simp [truthy, (isEmpty_false_iff ss).mpr hs']

/-! ## `mergeSortedNdjson.ts`: the streaming merge-join (lines 6–33)

The two NDJSON streams are advanced in lockstep; the side whose current
`uuid` is `<`-smaller is advanced, equal `uuid`s emit
`{ ...cardObj, prices: priceObj.prices }` and advance both; the loop stops
when either side is exhausted.  The loop consumes at least one record per
iteration, so running it with fuel `|cards| + |prices|` (a bound it never
exhausts) makes the recursion structural. -/

instance decEqDateMap : DecidableEq DateMap := inferInstance

instance decEqFinishMap : DecidableEq FinishMap := List.hasDecEq

instance decEqTypeMap : DecidableEq TypeMap := List.hasDecEq

instance decEqPriceTree : DecidableEq PriceTree := List.hasDecEq

structure CardRec where
  uuid : String
  name : String
  setCode : String
  language : String
  scryfallId : Option String
  purchaseUrls : Option String
deriving DecidableEq

structure PriceRec where
  uuid : String
  prices : PriceTree
deriving DecidableEq

structure MergedRec where
  uuid : String
  name : String
  setCode : String
  language : String
  scryfallId : Option String
  purchaseUrls : Option String
  prices : PriceTree
deriving DecidableEq

/-- `{ ...cardObj, prices: priceObj.prices }`. -/
def mkMerged (c : CardRec) (p : PriceRec) : MergedRec :=
  { uuid := c.uuid, name := c.name, setCode := c.setCode,
    language := c.language, scryfallId := c.scryfallId,
    purchaseUrls := c.purchaseUrls, prices := p.prices }

def mergeGo : Nat → List CardRec → List PriceRec → List MergedRec
  | 0, _, _ => []
  | _ + 1, [], _ => []
  | _ + 1, _ :: _, [] => []
  | n + 1, c :: cs, p :: ps =>
    if strLt c.uuid p.uuid then mergeGo n cs (p :: ps)
    else if strLt p.uuid c.uuid then mergeGo n (c :: cs) ps
    else mkMerged c p :: mergeGo n cs ps

def mergeSortedNdjson (cards : List CardRec) (prices : List PriceRec) : List MergedRec :=
  mergeGo (cards.length + prices.length) cards prices

theorem strLt_ne {a b : String} (h : strLt a b = true) : a ≠ b := by
  intro hcon
  subst hcon
  simp only [strLt, decide_eq_true_iff] at h
  rw [strCompare_eq_iff.mpr rfl] at h
  cases h

/-- The inner-join formula the loop computes on strictly-sorted inputs:
each card record paired with the price record found for its uuid. -/
def joinFormula (ps : List PriceRec) (cs : List CardRec) : List MergedRec :=
  cs.filterMap (fun c => (ps.find? (fun p => p.uuid == c.uuid)).map (mkMerged c))

theorem mergeGo_eq : ∀ (n : Nat) (cs : List CardRec) (ps : List PriceRec),
    cs.length + ps.length ≤ n →
    cs.Pairwise (fun a b => strLt a.uuid b.uuid = true) →
    ps.Pairwise (fun a b => strLt a.uuid b.uuid = true) →
    mergeGo n cs ps = joinFormula ps cs := by
  intro n
  induction n with
  | zero =>
    intro cs ps hlen _ _
    cases cs with
    | nil => simp [mergeGo, joinFormula]
    | cons c cs' => simp at hlen
  | succ n ih =>
    intro cs ps hlen hc hp
    cases cs with
    | nil => simp [mergeGo, joinFormula]
    | cons c cs' =>
      cases ps with
      | nil =>
        simp [mergeGo, joinFormula, List.find?]
      | cons p ps' =>
        have hc' := (List.pairwise_cons.mp hc).2
        have hcall := (List.pairwise_cons.mp hc).1
        have hp' := (List.pairwise_cons.mp hp).2
        have hpall := (List.pairwise_cons.mp hp).1
        simp only [mergeGo]
        by_cases hlt : strLt c.uuid p.uuid = true
        · rw [if_pos hlt]
          rw [ih cs' (p :: ps') (by simp at hlen ⊢; omega) hc' hp]
          unfold joinFormula
          have hnone : (p :: ps').find? (fun q => q.uuid == c.uuid) = none := by
            rw [List.find?_eq_none]
            intro q hq
            rcases List.mem_cons.mp hq with rfl | hq
            · simp
              exact fun hcon => strLt_ne hlt hcon.symm
            · simp
              intro hcon
              exact strLt_ne (strLt_trans hlt (hpall q hq)) hcon.symm
          rw [List.filterMap_cons]
          rw [hnone]
          rfl
        · by_cases hgt : strLt p.uuid c.uuid = true
          · rw [if_neg hlt, if_pos hgt]
            rw [ih (c :: cs') ps' (by simp at hlen ⊢; omega) hc hp']
            unfold joinFormula
            apply List.filterMap_congr
            intro c' hc'mem
            have hne : ¬ ((p.uuid == c'.uuid) = true) := by
              rw [beq_iff_eq]
              rcases List.mem_cons.mp hc'mem with rfl | hmem
              · exact fun hcon => strLt_ne hgt hcon
              · exact fun hcon => strLt_ne (strLt_trans hgt (hcall c' hmem)) hcon
            rw [@List.find?_cons_of_neg _ (fun q => q.uuid == c'.uuid) p ps' hne]
          · have hlt' : strLt c.uuid p.uuid = false := by
              cases h : strLt c.uuid p.uuid
              · rfl
              · exact absurd h hlt
            have hgt' : strLt p.uuid c.uuid = false := by
              cases h : strLt p.uuid c.uuid
              · rfl
              · exact absurd h hgt
            have heq : c.uuid = p.uuid := eq_of_not_strLt hlt' hgt'
            rw [if_neg hlt, if_neg hgt]
            rw [ih cs' ps' (by simp at hlen ⊢; omega) hc' hp']
            unfold joinFormula
            rw [List.filterMap_cons]
            have hfind : (p :: ps').find? (fun q => q.uuid == c.uuid) = some p := by
              apply List.find?_cons_of_pos
              show (p.uuid == c.uuid) = true
              rw [beq_iff_eq]
              exact heq.symm
            rw [hfind]
            simp only [Option.map_some']
            congr 1
            apply List.filterMap_congr
            intro c' hc'mem
            have hne : ¬ ((p.uuid == c'.uuid) = true) := by
              rw [beq_iff_eq]
              intro hcon
              exact strLt_ne (hcall c' hc'mem) (heq.trans hcon)
            rw [@List.find?_cons_of_neg _ (fun q => q.uuid == c'.uuid) p ps' hne]

theorem mergeGo_nil_left : ∀ (n : Nat) (ps : List PriceRec), mergeGo n [] ps = [] := by
  intro n ps
  cases n with
  | zero => rfl
  | succ n => rfl

theorem mergeGo_nil_right : ∀ (n : Nat) (cs : List CardRec), mergeGo n cs [] = [] := by
  intro n cs
  cases n with
  | zero => rfl
  | succ n => cases cs with
    | nil => rfl
    | cons c cs' => rfl

theorem map_uuid_joinFormula (ps : List PriceRec) (cs : List CardRec) :
    (joinFormula ps cs).map (fun m => m.uuid)
      = (cs.map (fun c => c.uuid)).filter (fun u => ps.any (fun p => p.uuid == u)) := by
  induction cs with
  | nil => rfl
  | cons c cs' ih =>
    unfold joinFormula at ih ⊢
    rw [List.filterMap_cons, List.map_cons]
    cases hf : ps.find? (fun p => p.uuid == c.uuid) with
    | none =>
      have hany : ps.any (fun p => p.uuid == c.uuid) = false := by
        rw [List.any_eq_false]
        exact List.find?_eq_none.mp hf
      rw [List.filter_cons, hany]
      simpa using ih
    | some p =>
      have hany : ps.any (fun p => p.uuid == c.uuid) = true :=
        List.any_eq_true.mpr ⟨p, List.mem_of_find?_eq_some hf,
          @List.find?_some _ (fun q => q.uuid == c.uuid) p ps hf⟩
      rw [List.filter_cons, hany]
      simp only [Option.map_some', List.map_cons]
      rw [ih]
      rfl

/-- **C2**: on identifier-ascending-sorted inputs with distinct
identifiers per side, the merge-join is a strict inner join: its output
identifiers are exactly the identifiers present on both sides, in
ascending order; each output record combines the card record's fields
with the matching price record's `prices`; an empty side yields an empty
output. -/
theorem mergeSortedNdjson_inner_join (cards : List CardRec) (prices : List PriceRec)
    (hc : cards.Pairwise (fun a b => strLt a.uuid b.uuid = true))
    (hp : prices.Pairwise (fun a b => strLt a.uuid b.uuid = true)) :
    ((mergeSortedNdjson cards prices).map (fun m => m.uuid)
        = (cards.map (fun c => c.uuid)).filter (fun u => prices.any (fun p => p.uuid == u)))
    ∧ (∀ m ∈ mergeSortedNdjson cards prices,
        ∃ c ∈ cards, ∃ p ∈ prices, c.uuid = p.uuid ∧ m = mkMerged c p)
    ∧ ((mergeSortedNdjson cards prices).map (fun m => m.uuid)).Pairwise
        (fun a b => strLt a b = true)
    ∧ mergeSortedNdjson [] prices = []
    ∧ mergeSortedNdjson cards [] = [] := by
  have hmain : mergeSortedNdjson cards prices = joinFormula prices cards :=
    mergeGo_eq (cards.length + prices.length) cards prices (le_refl _) hc hp
  refine ⟨?_, ?_, ?_, ?_, ?_⟩
  · rw [hmain, map_uuid_joinFormula]
  · intro m hm
    rw [hmain] at hm
    unfold joinFormula at hm
    rcases List.mem_filterMap.mp hm with ⟨c, hcmem, hfc⟩
    cases hf : prices.find? (fun p => p.uuid == c.uuid) with
    | none => rw [hf] at hfc; cases hfc
    | some p =>
      rw [hf] at hfc
      simp only [Option.map_some', Option.some.injEq] at hfc
      refine ⟨c, hcmem, p, List.mem_of_find?_eq_some hf, ?_, hfc.symm⟩
      have hpc := @List.find?_some _ (fun q => q.uuid == c.uuid) p prices hf
      exact (beq_iff_eq.mp hpc).symm
  · rw [hmain, map_uuid_joinFormula]
    exact (List.pairwise_map.mpr hc).filter _
  · exact mergeGo_nil_left _ _
  · exact mergeGo_nil_right _ _

/-- The spec's merge-join example: Minimal side `{A, B, D}`. -/
def cardsEx : List CardRec :=
  [⟨"A", "Alpha", "SET", "English", none, none⟩,
    ⟨"B", "Beta", "SET", "English", none, none⟩,
    ⟨"D", "Delta", "SET", "English", none, none⟩]

/-- The spec's merge-join example: Price side `{B, C, D}`. -/
def pricesEx : List PriceRec :=
  [⟨"B", [("tcgplayer", [("retail", [("normal", [("2024-01-01", (1 : Int))])])])]⟩,
    ⟨"C", []⟩, ⟨"D", []⟩]

theorem mergeSortedNdjson_inner_join_witness :
    ((mergeSortedNdjson cardsEx pricesEx).map (fun m => m.uuid)
        = (cardsEx.map (fun c => c.uuid)).filter (fun u => pricesEx.any (fun p => p.uuid == u)))
    ∧ (mergeSortedNdjson cardsEx pricesEx).map (fun m => m.uuid) = ["B", "D"] :=
  ⟨(mergeSortedNdjson_inner_join cardsEx pricesEx (by decide) (by decide)).1,
    by decide⟩

/-! ## `sortNdjson.ts` (src/utils/sortNdjson.ts lines 23–56 and the
scripts/ variant, identical logic)

Parseable lines are collected (`total++`), unparseable lines are skipped
(`failed++`), and the collected records are sorted with
`lines.sort((a, b) => a.uuid.localeCompare(b.uuid))`.

`localeCompare` is **not** byte-wise comparison: it uses the runtime's
locale collation.  Modelled from the spec: `String.prototype.localeCompare`
with no arguments (ECMA-402 default collator, ICU root collation) is
absent from the repository's sources; restricted to the ASCII range it
compares primary weights — all punctuation/controls before all digits
before all letters, letters case-insensitively — and breaks primary ties
by case, lowercase before uppercase.  On identifiers made of lowercase
letters, digits and hyphens (all identifiers this pipeline sorts) it
coincides with byte-wise comparison. -/

def primOfNat (n : Nat) : Nat :=
  if 48 ≤ n ∧ n ≤ 57 then 1000 + n
  else if 65 ≤ n ∧ n ≤ 90 then 2000 + n + 32
  else if 97 ≤ n ∧ n ≤ 122 then 2000 + n
  else n

/-- ICU root primary weight of an ASCII character. -/
def charPrimary (c : Char) : Nat := primOfNat c.toNat

/-- ICU root case (tertiary) weight: uppercase after lowercase. -/
def charCase (c : Char) : Nat := if 65 ≤ c.toNat ∧ c.toNat ≤ 90 then 1 else 0

/-- Modelled from the spec: `a.localeCompare(b)` under the default (root)
collator, on the ASCII range. -/
def localeCompare (a b : String) : Ordering :=
  match lexN (a.toList.map charPrimary) (b.toList.map charPrimary) with
  | .eq => lexN (a.toList.map charCase) (b.toList.map charCase)
  | o => o

/-- `a.uuid.localeCompare(b.uuid) <= 0`: the order the sort comparator
establishes. -/
def localeLe (a b : String) : Bool := decide (localeCompare a b ≠ .gt)

/-- The characters appearing in this pipeline's identifiers (MTGJSON
uuids): lowercase hex letters, digits and hyphens — closed under anything
lowercase-alphanumeric-or-hyphen. -/
def alphaOK (c : Char) : Bool :=
  decide (c.toNat = 45 ∨ (48 ≤ c.toNat ∧ c.toNat ≤ 57) ∨ (97 ≤ c.toNat ∧ c.toNat ≤ 122))

theorem localeLe_trans {a b c : String} (h1 : localeLe a b = true)
    (h2 : localeLe b c = true) : localeLe a c = true := by
  simp only [localeLe, decide_eq_true_iff] at h1 h2 ⊢
  unfold localeCompare at h1 h2 ⊢
  cases hab : lexN (a.toList.map charPrimary) (b.toList.map charPrimary) with
  | gt => rw [hab] at h1; exact absurd rfl h1
  | lt =>
    rw [hab] at h1
    cases hbc : lexN (b.toList.map charPrimary) (c.toList.map charPrimary) with
    | gt => rw [hbc] at h2; exact absurd rfl h2
    | lt =>
      rw [lexN_lt_trans hab hbc]
      simp
    | eq =>
      have heq := lexN_eq_iff.mp hbc
      rw [← heq, hab]
      simp
  | eq =>
    rw [hab] at h1
    have heqab := lexN_eq_iff.mp hab
    cases hbc : lexN (b.toList.map charPrimary) (c.toList.map charPrimary) with
    | gt => rw [hbc] at h2; exact absurd rfl h2
    | lt =>
      rw [heqab, hbc]
      simp
    | eq =>
      rw [hbc] at h2
      have heqbc := lexN_eq_iff.mp hbc
      rw [heqab, hbc]
      have hcase : lexN (a.toList.map charCase) (c.toList.map charCase) ≠ .gt := by
        apply lexN_le_trans h1
        exact h2
      exact hcase

theorem localeLe_total (a b : String) : (localeLe a b || localeLe b a) = true := by
  simp only [localeLe, Bool.or_eq_true, decide_eq_true_iff]
  unfold localeCompare
  cases hab : lexN (a.toList.map charPrimary) (b.toList.map charPrimary) with
  | lt => left; simp
  | gt =>
    right
    have hsw := lexN_swap (a.toList.map charPrimary) (b.toList.map charPrimary)
    rw [hab] at hsw
    have hlt : lexN (b.toList.map charPrimary) (a.toList.map charPrimary) = .lt := hsw.symm
    rw [hlt]
    simp
  | eq =>
    have heq := lexN_eq_iff.mp hab
    rw [heq] at hab ⊢
    rw [hab]
    cases hc : lexN (a.toList.map charCase) (b.toList.map charCase) with
    | lt => left; simp [hc]
    | eq => left; simp [hc]
    | gt =>
      right
      have hsw := lexN_swap (a.toList.map charCase) (b.toList.map charCase)
      rw [hc] at hsw
      have hlt : lexN (b.toList.map charCase) (a.toList.map charCase) = .lt := hsw.symm
      rw [hlt]
      simp

theorem primOfNat_cmp {a b : Nat}
    (ha : a = 45 ∨ (48 ≤ a ∧ a ≤ 57) ∨ (97 ≤ a ∧ a ≤ 122))
    (hb : b = 45 ∨ (48 ≤ b ∧ b ≤ 57) ∨ (97 ≤ b ∧ b ≤ 122)) :
    compare (primOfNat a) (primOfNat b) = compare a b := by
  rcases Nat.lt_trichotomy a b with h | h | h
  · have hp : primOfNat a < primOfNat b := by
      unfold primOfNat
      split_ifs <;> omega
    rw [Nat.compare_eq_lt.mpr h, Nat.compare_eq_lt.mpr hp]
  · subst h
    rw [Nat.compare_eq_eq.mpr rfl, Nat.compare_eq_eq.mpr rfl]
  · have hp : primOfNat b < primOfNat a := by
      unfold primOfNat
      split_ifs <;> omega
    rw [Nat.compare_eq_gt.mpr h, Nat.compare_eq_gt.mpr hp]

theorem alphaOK_elim {c : Char} (h : alphaOK c = true) :
    c.toNat = 45 ∨ (48 ≤ c.toNat ∧ c.toNat ≤ 57) ∨ (97 ≤ c.toNat ∧ c.toNat ≤ 122) := by
  simpa only [alphaOK, decide_eq_true_iff] using h

theorem lexN_map_prim : ∀ (l m : List Char),
    (∀ c ∈ l, alphaOK c = true) → (∀ c ∈ m, alphaOK c = true) →
    lexN (l.map charPrimary) (m.map charPrimary)
      = lexN (l.map Char.toNat) (m.map Char.toNat) := by
  intro l
  induction l with
  | nil =>
    intro m _ _
    cases m <;> rfl
  | cons a as ih =>
    intro m hl hm
    cases m with
    | nil => rfl
    | cons b bs =>
      simp only [List.map_cons, lexN]
      have hcmp : compare (charPrimary a) (charPrimary b) = compare a.toNat b.toNat :=
        primOfNat_cmp (alphaOK_elim (hl a (List.mem_cons_self _ _)))
          (alphaOK_elim (hm b (List.mem_cons_self _ _)))
      rw [hcmp]
      cases compare a.toNat b.toNat with
      | lt => rfl
      | gt => rfl
      | eq =>
        exact ih bs (fun c hc => hl c (List.mem_cons_of_mem _ hc))
          (fun c hc => hm c (List.mem_cons_of_mem _ hc))

theorem charCase_zero {c : Char} (h : alphaOK c = true) : charCase c = 0 := by
  have h' := alphaOK_elim h
  unfold charCase
  split_ifs with hc
  · omega
  · rfl

theorem map_charCase_replicate : ∀ (l : List Char), (∀ c ∈ l, alphaOK c = true) →
    l.map charCase = List.replicate l.length 0 := by
  intro l
  induction l with
  | nil => intro _; rfl
  | cons a as ih =>
    intro h
    simp only [List.map_cons, List.length_cons, List.replicate_succ]
    rw [charCase_zero (h a (List.mem_cons_self _ _)),
      ih (fun c hc => h c (List.mem_cons_of_mem _ hc))]

/-- On identifiers over the lowercase/digit/hyphen alphabet the locale
collation coincides with byte-wise comparison. -/
theorem localeCompare_eq_strCompare {a b : String}
    (ha : ∀ c ∈ a.toList, alphaOK c = true) (hb : ∀ c ∈ b.toList, alphaOK c = true) :
    localeCompare a b = strCompare a b := by
  unfold localeCompare strCompare
  have hmap := lexN_map_prim a.toList b.toList ha hb
  cases hq : lexN (a.toList.map charPrimary) (b.toList.map charPrimary) with
  | lt =>
    rw [hq] at hmap
    exact hmap
  | gt =>
    rw [hq] at hmap
    exact hmap
  | eq =>
    rw [hq] at hmap
    have hcodes : a.toList.map Char.toNat = b.toList.map Char.toNat :=
      lexN_eq_iff.mp hmap.symm
    have hlen : a.toList.length = b.toList.length := by
      have := congrArg List.length hcodes
      simpa using this
    rw [map_charCase_replicate a.toList ha, map_charCase_replicate b.toList hb, hlen]
    rw [lexN_eq_iff.mpr rfl]
    exact (lexN_eq_iff.mpr hcodes).symm

/-- A parsed NDJSON record: its sort key plus an opaque payload standing
for the rest of the parsed object.  A line that fails `JSON.parse` is
`none`. -/
structure NdjsonRec where
  uuid : String
  payload : Int
deriving DecidableEq

/-- One loop iteration: `lines.push(JSON.parse(line)); total++` on
success, `failed++` on a parse error. -/
def sortNdjsonScan (st : List NdjsonRec × Nat × Nat) (line : Option NdjsonRec) :
    List NdjsonRec × Nat × Nat :=
  match line with
  | some r => (st.1 ++ [r], st.2.1 + 1, st.2.2)
  | none => (st.1, st.2.1, st.2.2 + 1)

/-- `sortNdjson`: collect the parseable records, sort them with
`(a, b) => a.uuid.localeCompare(b.uuid)`, report `total` and `failed`. -/
def sortNdjson (lines : List (Option NdjsonRec)) : List NdjsonRec × Nat × Nat :=
  let st := lines.foldl sortNdjsonScan ([], 0, 0)
  (sortBy (fun a b => localeLe a.uuid b.uuid) st.1, st.2.1, st.2.2)

theorem sortNdjsonScan_foldl (lines : List (Option NdjsonRec)) :
    ∀ out total failed,
      lines.foldl sortNdjsonScan (out, total, failed)
        = (out ++ lines.filterMap id,
            total + (lines.filterMap id).length,
            failed + lines.countP (fun l => l.isNone)) := by
  induction lines with
  | nil => intro out total failed; simp
  | cons l ls ih =>
    intro out total failed
    cases l with
    | some r =>
      simp only [List.foldl_cons, sortNdjsonScan]
      rw [ih]
      simp [List.countP_cons]
      omega
    | none =>
      simp only [List.foldl_cons, sortNdjsonScan]
      rw [ih]
      simp [List.countP_cons]
      omega

/-- **C6 (counterexample)**: the sort comparator is `localeCompare`, not
byte-wise comparison.  On records with uuids `"a"` and `"B"` the code
orders `"a"` before `"B"` (root-collation: lowercase letters sort before
uppercase at the same primary weight, and `a < b` at primary level),
whereas byte-wise ascending order would put `"B"` (0x42) first; the
output is not byte-wise sorted. -/
theorem sortNdjson_localeCompare_counterexample :
    ((sortNdjson [some ⟨"a", 0⟩, some ⟨"B", 0⟩]).1.map (fun r => r.uuid) = ["a", "B"])
    ∧ ¬ (((sortNdjson [some ⟨"a", 0⟩, some ⟨"B", 0⟩]).1.map (fun r => r.uuid)).Pairwise
          (fun x y => strLe x y = true)) := by
  constructor
  · decide
  · decide

/-- **C6 (amended)**: the External Sort outputs exactly the parseable
records (a permutation, duplicates preserved) ordered ascending by
identifier under the `localeCompare` collation; the skipped count equals
the number of unparseable lines and the total count the number of
parseable ones; and whenever every identifier uses only lowercase
letters, digits and hyphens (as every identifier in this pipeline does),
the locale order coincides with byte-wise order, so the output is also
byte-wise ascending. -/
theorem sortNdjson_sorted_skipped (lines : List (Option NdjsonRec)) :
    ((sortNdjson lines).1.Perm (lines.filterMap id))
    ∧ ((sortNdjson lines).1.Pairwise (fun a b => localeLe a.uuid b.uuid = true))
    ∧ ((sortNdjson lines).2.1 = (lines.filterMap id).length)
    ∧ ((sortNdjson lines).2.2 = lines.countP (fun l => l.isNone))
    ∧ ((∀ r ∈ lines.filterMap id, ∀ c ∈ r.uuid.toList, alphaOK c = true) →
        (sortNdjson lines).1.Pairwise (fun a b => strLe a.uuid b.uuid = true)) := by
  have hfold := sortNdjsonScan_foldl lines [] 0 0
  have h1 : (sortNdjson lines).1
      = sortBy (fun a b => localeLe a.uuid b.uuid) (lines.filterMap id) := by
    unfold sortNdjson
    rw [hfold]
    simp
  have h2 : (sortNdjson lines).2.1 = (lines.filterMap id).length := by
    unfold sortNdjson
    rw [hfold]
    simp
  have h3 : (sortNdjson lines).2.2 = lines.countP (fun l => l.isNone) := by
    unfold sortNdjson
    rw [hfold]
    simp
  have hperm : (sortNdjson lines).1.Perm (lines.filterMap id) := by
    rw [h1]
    exact sortBy_perm _ _
  have hsorted : (sortNdjson lines).1.Pairwise
      (fun a b => localeLe a.uuid b.uuid = true) := by
    rw [h1]
    exact sortBy_pairwise (fun (a b : NdjsonRec) => localeLe_total a.uuid b.uuid)
      (fun ha hb => localeLe_trans ha hb) _
  refine ⟨hperm, hsorted, h2, h3, ?_⟩
  intro halpha
  refine List.Pairwise.imp_of_mem ?_ hsorted
  intro a b hamem hbmem hab
  have ha' := halpha a (hperm.mem_iff.mp hamem)
  have hb' := halpha b (hperm.mem_iff.mp hbmem)
  simp only [localeLe, decide_eq_true_iff] at hab
  rw [localeCompare_eq_strCompare ha' hb'] at hab
  simp only [strLe, decide_eq_true_iff]
  exact hab

theorem sortNdjson_sorted_skipped_witness :
    ((sortNdjson [some ⟨"b", 0⟩, none, some ⟨"a", 0⟩]).1.Pairwise
        (fun a b => strLe a.uuid b.uuid = true))
    ∧ (sortNdjson [some ⟨"b", 0⟩, none, some ⟨"a", 0⟩]).2.2 = 1
    ∧ (sortNdjson [some ⟨"b", 0⟩, none, some ⟨"a", 0⟩]).1.map (fun r => r.uuid)
        = ["a", "b"] :=
  ⟨(sortNdjson_sorted_skipped [some ⟨"b", 0⟩, none, some ⟨"a", 0⟩]).2.2.2.2 (by decide),
    by decide, by decide⟩

/-! ## `uploadToMongo.ts`: the per-record upsert (lines 70–93)

```
const existing = await Card.findOne({ uuid: card.uuid }, { prices: 1 }).lean();
const mergedPrices = mergePriceObjects(existing?.prices, card.prices);
const updatedCard = { ...card, prices: mergedPrices };
buffer.push({ updateOne: { filter: { uuid: updatedCard.uuid },
                           update: { $set: updatedCard }, upsert: true } });
```

The database is modelled as a uuid-keyed collection of stored cards (the
Card schema: identity fields, `prices`, and `imageUrl` defaulting to the
placeholder).  `updateOne` with `$set: updatedCard` and `upsert: true`
sets **every** field of `updatedCard` — the identity fields included — on
every run; only fields absent from `updatedCard` (`imageUrl`) keep their
stored value, and schema defaults apply on a fresh insert. -/

def placeholderImage : String := "/images/PlaceHolder.png"

structure StoredCard where
  uuid : String
  name : String
  setCode : String
  language : String
  scryfallId : Option String
  purchaseUrls : Option String
  imageUrl : String
  prices : PriceTree
deriving DecidableEq

def upsertStep (db : Obj StoredCard) (card : MergedRec) : Obj StoredCard :=
  match getO db card.uuid with
  | some old =>
    setO db card.uuid
      { uuid := card.uuid, name := card.name, setCode := card.setCode,
        language := card.language, scryfallId := card.scryfallId,
        purchaseUrls := card.purchaseUrls, imageUrl := old.imageUrl,
        prices := mergePriceObjectsOpt (some old.prices) card.prices }
  | none =>
    setO db card.uuid
      { uuid := card.uuid, name := card.name, setCode := card.setCode,
        language := card.language, scryfallId := card.scryfallId,
        purchaseUrls := card.purchaseUrls, imageUrl := placeholderImage,
        prices := mergePriceObjectsOpt none card.prices }

def storedOld : StoredCard :=
  ⟨"u1", "Old Name", "SET", "English", none, none, placeholderImage, []⟩

def incomingNew : MergedRec :=
  ⟨"u1", "New Name", "SET2", "English", none, none, []⟩

/-- **C4 (counterexample)**: the upsert uses `$set: updatedCard`, not
`$setOnInsert`, so a subsequent upsert for an existing identifier
overwrites the stored identity fields with the incoming values: upserting
an incoming record named `"New Name"` over a stored item named
`"Old Name"` changes the stored name. -/
theorem uploadNDJSON_setOnInsert_counterexample :
    (getO [("u1", storedOld)] "u1").map (fun s => s.name) = some "Old Name"
    ∧ (getO (upsertStep [("u1", storedOld)] incomingNew) "u1").map (fun s => s.name)
        = some "New Name"
    ∧ (getO (upsertStep [("u1", storedOld)] incomingNew) "u1").map (fun s => s.name)
        ≠ (getO [("u1", storedOld)] "u1").map (fun s => s.name) := by
  refine ⟨by decide, by decide, by decide⟩

/-- **C4 (amended)**: the upsert writes all fields of the incoming record
— identity fields included — unconditionally via `$set` on every run
(overwriting the stored identity values with the incoming ones) together
with the merged price tree; only fields absent from the update document
(`imageUrl`) keep their stored value, schema defaults apply on first
insert, and no other document is touched. -/
theorem uploadNDJSON_set_unconditional (db : Obj StoredCard) (card : MergedRec) :
    (getO (upsertStep db card) card.uuid
      = some (match getO db card.uuid with
          | some old =>
            { uuid := card.uuid, name := card.name, setCode := card.setCode,
              language := card.language, scryfallId := card.scryfallId,
              purchaseUrls := card.purchaseUrls, imageUrl := old.imageUrl,
              prices := mergePriceObjectsOpt (some old.prices) card.prices }
          | none =>
            { uuid := card.uuid, name := card.name, setCode := card.setCode,
              language := card.language, scryfallId := card.scryfallId,
              purchaseUrls := card.purchaseUrls, imageUrl := placeholderImage,
              prices := mergePriceObjectsOpt none card.prices }))
    ∧ ∀ u : String, u ≠ card.uuid → getO (upsertStep db card) u = getO db u := by
  constructor
  · unfold upsertStep
    cases hex : getO db card.uuid with
    | some old =>
      rw [getO_setO]
      simp
    | none =>
      rw [getO_setO]
      simp
  · intro u hu
    unfold upsertStep
    cases hex : getO db card.uuid with
    | some old =>
      rw [getO_setO]
      rw [if_neg (fun h => hu h.symm)]
    | none =>
      rw [getO_setO]
      rw [if_neg (fun h => hu h.symm)]

theorem uploadNDJSON_set_unconditional_witness :
    getO (upsertStep [("u1", storedOld)] incomingNew) "zz"
      = getO [("u1", storedOld)] "zz" :=
  (uploadNDJSON_set_unconditional [("u1", storedOld)] incomingNew).2 "zz" (by decide)

/-! ## A heap embedding of `mergePriceObjects` (C8)

The pure model above cannot express the frame property — that the JS
function mutates neither of its arguments and returns a freshly
constructed tree — so the function is re-embedded against an explicit
object heap.  A heap maps references to JS objects whose field values are
numbers or references; `JSON.parse(JSON.stringify(existing || {}))`
becomes "read the tree denoted by `existing` and allocate a fresh copy",
and each loop level performs its reads and writes through the heap
exactly as the source lines do. -/

inductive JVal where
  | num (n : Int)
  | ref (r : Nat)
deriving DecidableEq

structure Heap where
  objs : Nat → Option (Obj JVal)
  next : Nat

/-- Every allocated reference lies below the allocation cursor. -/
def WFHeap (h : Heap) : Prop := ∀ r, h.next ≤ r → h.objs r = none

def hget (h : Heap) (r : Nat) : Option (Obj JVal) := h.objs r

def hset (h : Heap) (r : Nat) (o : Obj JVal) : Heap :=
  ⟨fun r' => if r' = r then some o else h.objs r', h.next⟩

def halloc (h : Heap) (o : Obj JVal) : Heap × Nat :=
  (⟨fun r' => if r' = h.next then some o else h.objs r', h.next + 1⟩, h.next)

/-- `obj[k] = v` on the object behind `r`. -/
def writeField (h : Heap) (r : Nat) (k : String) (v : JVal) : Heap :=
  hset h r (setO ((hget h r).getD []) k v)

/-! ### Reading a price tree out of the heap -/

def readDateMapFields : Obj JVal → Option DateMap
  | [] => some []
  | (k, JVal.num n) :: rest => (readDateMapFields rest).map (fun dm => (k, n) :: dm)
  | (_, JVal.ref _) :: _ => none

def readDateObj (h : Heap) (r : Nat) : Option DateMap :=
  (hget h r).bind readDateMapFields

def readFinishMapFields (h : Heap) : Obj JVal → Option FinishMap
  | [] => some []
  | (k, JVal.ref r) :: rest =>
    match readDateObj h r, readFinishMapFields h rest with
    | some dm, some fm => some ((k, dm) :: fm)
    | _, _ => none
  | (_, JVal.num _) :: _ => none

def readFinishObj (h : Heap) (r : Nat) : Option FinishMap :=
  (hget h r).bind (readFinishMapFields h)

def readTypeMapFields (h : Heap) : Obj JVal → Option TypeMap
  | [] => some []
  | (k, JVal.ref r) :: rest =>
    match readFinishObj h r, readTypeMapFields h rest with
    | some fm, some tm => some ((k, fm) :: tm)
    | _, _ => none
  | (_, JVal.num _) :: _ => none

def readTypeObj (h : Heap) (r : Nat) : Option TypeMap :=
  (hget h r).bind (readTypeMapFields h)

def readPriceTreeFields (h : Heap) : Obj JVal → Option PriceTree
  | [] => some []
  | (k, JVal.ref r) :: rest =>
    match readTypeObj h r, readPriceTreeFields h rest with
    | some tm, some t => some ((k, tm) :: t)
    | _, _ => none
  | (_, JVal.num _) :: _ => none

def readTree (h : Heap) (r : Nat) : Option PriceTree :=
  (hget h r).bind (readPriceTreeFields h)

/-! ### Allocating a fresh copy of a price tree (`JSON.parse`) -/

def allocDateObj (h : Heap) (dm : DateMap) : Heap × Nat :=
  halloc h (dm.map (fun p => (p.1, JVal.num p.2)))

def allocFinishObj (h : Heap) (fm : FinishMap) : Heap × Nat :=
  let acc := fm.foldl (fun (acc : Heap × Obj JVal) p =>
      let ar := allocDateObj acc.1 p.2
      (ar.1, acc.2 ++ [(p.1, JVal.ref ar.2)])) (h, [])
  halloc acc.1 acc.2

def allocTypeObj (h : Heap) (tm : TypeMap) : Heap × Nat :=
  let acc := tm.foldl (fun (acc : Heap × Obj JVal) p =>
      let ar := allocFinishObj acc.1 p.2
      (ar.1, acc.2 ++ [(p.1, JVal.ref ar.2)])) (h, [])
  halloc acc.1 acc.2

def allocTree (h : Heap) (t : PriceTree) : Heap × Nat :=
  let acc := t.foldl (fun (acc : Heap × Obj JVal) p =>
      let ar := allocTypeObj acc.1 p.2
      (ar.1, acc.2 ++ [(p.1, JVal.ref ar.2)])) (h, [])
  halloc acc.1 acc.2

/-! ### The merge loops against the heap -/

/-- `if (!r[k]) r[k] = {}` followed by reading `r[k]`.  (On the
well-formed trees reaching this code the stored value, when present, is
always an object reference.) -/
def ensureField (h : Heap) (r : Nat) (k : String) : Heap × Nat :=
  match getO ((hget h r).getD []) k with
  | some (JVal.ref r') => (h, r')
  | _ =>
    let ar := halloc h []
    (writeField ar.1 r k (JVal.ref ar.2), ar.2)

/-- `for (const date in incFin) res[date] = incFin[date]`. -/
def mergeDatesH (h : Heap) (rFin : Nat) (dates : Obj JVal) : Heap :=
  dates.foldl (fun h p => writeField h rFin p.1 p.2) h

/-- `for (const finish in incTy) { ensure; merge the dates }`. -/
def mergeFinishesH (h : Heap) (rTy : Nat) (fins : Obj JVal) : Heap :=
  fins.foldl (fun h p =>
    let er := ensureField h rTy p.1
    match p.2 with
    | JVal.ref rIn => mergeDatesH er.1 er.2 ((hget er.1 rIn).getD [])
    | JVal.num _ => er.1) h

/-- `for (const type in incVendor) { ensure; merge the finishes }`. -/
def mergeTypesH (h : Heap) (rVen : Nat) (tys : Obj JVal) : Heap :=
  tys.foldl (fun h p =>
    let er := ensureField h rVen p.1
    match p.2 with
    | JVal.ref rIn => mergeFinishesH er.1 er.2 ((hget er.1 rIn).getD [])
    | JVal.num _ => er.1) h

/-- `for (const vendor in incoming) { ensure; merge the types }`. -/
def mergeVendorsH (h : Heap) (rRes : Nat) (vendors : Obj JVal) : Heap :=
  vendors.foldl (fun h p =>
    let er := ensureField h rRes p.1
    match p.2 with
    | JVal.ref rIn => mergeTypesH er.1 er.2 ((hget er.1 rIn).getD [])
    | JVal.num _ => er.1) h

/-- The heap-level `mergePriceObjects(existing, incoming)`:
clone the tree behind `rex`, then run the four nested loops over the
object graph behind `rin`, returning the final heap and the reference of
the result object. -/
def mergePriceObjectsH (h : Heap) (rex rin : Nat) : Heap × Nat :=
  let tex := (readTree h rex).getD []
  let ar := allocTree h tex
  let vendors := (hget ar.1 rin).getD []
  (mergeVendorsH ar.1 ar.2 vendors, ar.2)

/-! ### The freshness invariant

`HeapInv h0 h` relates the heap at some point during the call to the heap
`h0` at entry: allocation only moved forward, every reference allocated
before the call still holds its original object, and every object in the
fresh region refers only into the fresh region (so writes through fresh
references can never touch a pre-existing object). -/

def HeapInv (h0 h : Heap) : Prop :=
  h0.next ≤ h.next
  ∧ (∀ r, r < h0.next → h.objs r = h0.objs r)
  ∧ (∀ r o, h0.next ≤ r → h.objs r = some o →
      ∀ p ∈ o, ∀ r', p.2 = JVal.ref r' → h0.next ≤ r')

theorem heapInv_refl {h0 : Heap} (hWF : WFHeap h0) : HeapInv h0 h0 := by
  refine ⟨le_refl _, fun _ _ => rfl, ?_⟩
  intro r o hr ho
  rw [hWF r hr] at ho
  cases ho

theorem writeField_objs (h : Heap) (r : Nat) (k : String) (v : JVal) (r' : Nat) :
    (writeField h r k v).objs r'
      = if r' = r then some (setO ((hget h r).getD []) k v) else h.objs r' := rfl

theorem writeField_next (h : Heap) (r : Nat) (k : String) (v : JVal) :
    (writeField h r k v).next = h.next := rfl

theorem halloc_objs (h : Heap) (o : Obj JVal) (r' : Nat) :
    (halloc h o).1.objs r' = if r' = h.next then some o else h.objs r' := rfl

theorem heapInv_writeField {h0 h : Heap} (hI : HeapInv h0 h) {rT : Nat}
    (hrT : h0.next ≤ rT) {k : String} {v : JVal}
    (hv : ∀ r', v = JVal.ref r' → h0.next ≤ r') :
    HeapInv h0 (writeField h rT k v) := by
  obtain ⟨hle, hold, hfc⟩ := hI
  refine ⟨hle, ?_, ?_⟩
  · intro r hr
    rw [writeField_objs, if_neg (by omega)]
    exact hold r hr
  · intro r o hr ho
    rw [writeField_objs] at ho
    by_cases hrt : r = rT
    · rw [if_pos hrt] at ho
      cases ho
      intro p hp r' hpr
      rcases mem_setO hp with hpe | hpm
      · exact hv r' (by rw [hpe] at hpr; exact hpr)
      · cases hh : hget h rT with
        | none => rw [hh] at hpm; cases hpm
        | some ob =>
          rw [hh] at hpm
          exact hfc rT ob (by omega) hh p hpm r' hpr
    · rw [if_neg hrt] at ho
      exact hfc r o hr ho

theorem heapInv_halloc {h0 h : Heap} (hI : HeapInv h0 h) {o : Obj JVal}
    (ho : ∀ p ∈ o, ∀ r', p.2 = JVal.ref r' → h0.next ≤ r') :
    HeapInv h0 (halloc h o).1 ∧ (halloc h o).2 = h.next
      ∧ h0.next ≤ (halloc h o).2 ∧ h.next < (halloc h o).1.next := by
  obtain ⟨hle, hold, hfc⟩ := hI
  refine ⟨⟨by show h0.next ≤ h.next + 1; omega, ?_, ?_⟩, rfl, hle, by
    show h.next < h.next + 1; omega⟩
  · intro r hr
    rw [halloc_objs, if_neg (by omega)]
    exact hold r hr
  · intro r ob hr hob
    rw [halloc_objs] at hob
    by_cases hrn : r = h.next
    · rw [if_pos hrn] at hob
      cases hob
      exact ho
    · rw [if_neg hrn] at hob
      exact hfc r ob hr hob

theorem heapInv_ensureField {h0 h : Heap} (hI : HeapInv h0 h) {rT : Nat}
    (hrT : h0.next ≤ rT) (k : String) :
    HeapInv h0 (ensureField h rT k).1 ∧ h0.next ≤ (ensureField h rT k).2 := by
  unfold ensureField
  cases hg : getO ((hget h rT).getD []) k with
  | none =>
    have ha := heapInv_halloc hI (o := []) (fun p hp => by cases hp)
    exact ⟨heapInv_writeField ha.1 hrT
        (fun r' hr' => by cases hr'; exact ha.2.2.1),
      by exact ha.2.2.1⟩
  | some v =>
    cases v with
    | num n =>
      have ha := heapInv_halloc hI (o := []) (fun p hp => by cases hp)
      exact ⟨heapInv_writeField ha.1 hrT
          (fun r' hr' => by cases hr'; exact ha.2.2.1),
        by exact ha.2.2.1⟩
    | ref r' =>
      refine ⟨hI, ?_⟩
      cases hh : hget h rT with
      | none =>
        rw [hh] at hg
        simp [getO] at hg
      | some ob =>
        rw [hh] at hg
        exact hI.2.2 rT ob hrT hh (k, JVal.ref r') (mem_of_getO hg) r' rfl

theorem ref_lt_next {h0 : Heap} (hWF : WFHeap h0) {r : Nat} {o : Obj JVal}
    (h : hget h0 r = some o) : r < h0.next := by
  by_contra hcon
  have h' : h0.objs r = some o := h
  rw [hWF r (by omega)] at h'
  cases h'

theorem readDateMapFields_nums : ∀ {o : Obj JVal} {dm : DateMap},
    readDateMapFields o = some dm → ∀ p ∈ o, ∃ n, p.2 = JVal.num n := by
  intro o
  induction o with
  | nil => intro dm _ p hp; cases hp
  | cons q rest ih =>
    intro dm h p hp
    obtain ⟨k, v⟩ := q
    cases v with
    | ref r => simp [readDateMapFields] at h
    | num n =>
      rcases List.mem_cons.mp hp with rfl | hp'
      · exact ⟨n, rfl⟩
      · simp only [readDateMapFields] at h
        cases hrest : readDateMapFields rest with
        | none => rw [hrest] at h; cases h
        | some dm' => exact ih hrest p hp'

theorem readFinishMapFields_refs {h0 : Heap} : ∀ {o : Obj JVal} {fm : FinishMap},
    readFinishMapFields h0 o = some fm →
    ∀ p ∈ o, ∀ r', p.2 = JVal.ref r' → ∃ dm, readDateObj h0 r' = some dm := by
  intro o
  induction o with
  | nil => intro fm _ p hp; cases hp
  | cons q rest ih =>
    intro fm h p hp r' hpr
    obtain ⟨k, v⟩ := q
    cases v with
    | num n => simp [readFinishMapFields] at h
    | ref r =>
      simp only [readFinishMapFields] at h
      cases hdo : readDateObj h0 r with
      | none => rw [hdo] at h; cases h
      | some dm =>
        rw [hdo] at h
        cases hrest : readFinishMapFields h0 rest with
        | none => rw [hrest] at h; cases h
        | some fm' =>
          rcases List.mem_cons.mp hp with rfl | hp'
          · cases hpr
            exact ⟨dm, hdo⟩
          · exact ih hrest p hp' r' hpr

theorem readTypeMapFields_refs {h0 : Heap} : ∀ {o : Obj JVal} {tm : TypeMap},
    readTypeMapFields h0 o = some tm →
    ∀ p ∈ o, ∀ r', p.2 = JVal.ref r' → ∃ fm, readFinishObj h0 r' = some fm := by
  intro o
  induction o with
  | nil => intro tm _ p hp; cases hp
  | cons q rest ih =>
    intro tm h p hp r' hpr
    obtain ⟨k, v⟩ := q
    cases v with
    | num n => simp [readTypeMapFields] at h
    | ref r =>
      simp only [readTypeMapFields] at h
      cases hdo : readFinishObj h0 r with
      | none => rw [hdo] at h; cases h
      | some fm =>
        rw [hdo] at h
        cases hrest : readTypeMapFields h0 rest with
        | none => rw [hrest] at h; cases h
        | some tm' =>
          rcases List.mem_cons.mp hp with rfl | hp'
          · cases hpr
            exact ⟨fm, hdo⟩
          · exact ih hrest p hp' r' hpr

theorem readPriceTreeFields_refs {h0 : Heap} : ∀ {o : Obj JVal} {t : PriceTree},
    readPriceTreeFields h0 o = some t →
    ∀ p ∈ o, ∀ r', p.2 = JVal.ref r' → ∃ tm, readTypeObj h0 r' = some tm := by
  intro o
  induction o with
  | nil => intro t _ p hp; cases hp
  | cons q rest ih =>
    intro t h p hp r' hpr
    obtain ⟨k, v⟩ := q
    cases v with
    | num n => simp [readPriceTreeFields] at h
    | ref r =>
      simp only [readPriceTreeFields] at h
      cases hdo : readTypeObj h0 r with
      | none => rw [hdo] at h; cases h
      | some tm =>
        rw [hdo] at h
        cases hrest : readPriceTreeFields h0 rest with
        | none => rw [hrest] at h; cases h
        | some t' =>
          rcases List.mem_cons.mp hp with rfl | hp'
          · cases hpr
            exact ⟨tm, hdo⟩
          · exact ih hrest p hp' r' hpr

theorem heapInv_mergeDatesH {h0 : Heap} : ∀ (dates : Obj JVal) {h : Heap} {rFin : Nat},
    HeapInv h0 h → h0.next ≤ rFin →
    (∀ p ∈ dates, ∃ n, p.2 = JVal.num n) →
    HeapInv h0 (mergeDatesH h rFin dates) := by
  intro dates
  induction dates with
  | nil => intro h rFin hI _ _; exact hI
  | cons p rest ih =>
    intro h rFin hI hr hnum
    show HeapInv h0 (mergeDatesH (writeField h rFin p.1 p.2) rFin rest)
    rcases hnum p (List.mem_cons_self _ _) with ⟨n, hn⟩
    refine ih (heapInv_writeField hI hr ?_) hr
      (fun q hq => hnum q (List.mem_cons_of_mem _ hq))
    intro r' hr'
    rw [hn] at hr'
    cases hr'

theorem heapInv_mergeFinishesH {h0 : Heap} (hWF : WFHeap h0) :
    ∀ (fins : Obj JVal) {h : Heap} {rTy : Nat},
    HeapInv h0 h → h0.next ≤ rTy →
    (∀ p ∈ fins, ∀ rIn, p.2 = JVal.ref rIn → ∃ dm, readDateObj h0 rIn = some dm) →
    HeapInv h0 (mergeFinishesH h rTy fins) := by
  intro fins
  induction fins with
  | nil => intro h rTy hI _ _; exact hI
  | cons p rest ih =>
    intro h rTy hI hr hread
    have he := heapInv_ensureField hI hr p.1
    show HeapInv h0 (mergeFinishesH
      (match p.2 with
        | JVal.ref rIn =>
          mergeDatesH (ensureField h rTy p.1).1 (ensureField h rTy p.1).2
            ((hget (ensureField h rTy p.1).1 rIn).getD [])
        | JVal.num _ => (ensureField h rTy p.1).1) rTy rest)
    cases hp2 : p.2 with
    | num n =>
      exact ih he.1 hr (fun q hq => hread q (List.mem_cons_of_mem _ hq))
    | ref rIn =>
      rcases hread p (List.mem_cons_self _ _) rIn hp2 with ⟨dm, hdm⟩
      unfold readDateObj at hdm
      cases hh0 : hget h0 rIn with
      | none => rw [hh0] at hdm; cases hdm
      | some odates =>
        rw [hh0] at hdm
        have hlt : rIn < h0.next := ref_lt_next hWF hh0
        have hsame : hget (ensureField h rTy p.1).1 rIn = some odates := by
          show (ensureField h rTy p.1).1.objs rIn = some odates
          rw [he.1.2.1 rIn hlt]
          exact hh0
        have hmerge := heapInv_mergeDatesH ((hget (ensureField h rTy p.1).1 rIn).getD [])
          he.1 he.2 (by
            rw [hsame]
            exact readDateMapFields_nums hdm)
        exact ih hmerge hr (fun q hq => hread q (List.mem_cons_of_mem _ hq))

theorem heapInv_mergeTypesH {h0 : Heap} (hWF : WFHeap h0) :
    ∀ (tys : Obj JVal) {h : Heap} {rVen : Nat},
    HeapInv h0 h → h0.next ≤ rVen →
    (∀ p ∈ tys, ∀ rIn, p.2 = JVal.ref rIn → ∃ fm, readFinishObj h0 rIn = some fm) →
    HeapInv h0 (mergeTypesH h rVen tys) := by
  intro tys
  induction tys with
  | nil => intro h rVen hI _ _; exact hI
  | cons p rest ih =>
    intro h rVen hI hr hread
    have he := heapInv_ensureField hI hr p.1
    show HeapInv h0 (mergeTypesH
      (match p.2 with
        | JVal.ref rIn =>
          mergeFinishesH (ensureField h rVen p.1).1 (ensureField h rVen p.1).2
            ((hget (ensureField h rVen p.1).1 rIn).getD [])
        | JVal.num _ => (ensureField h rVen p.1).1) rVen rest)
    cases hp2 : p.2 with
    | num n =>
      exact ih he.1 hr (fun q hq => hread q (List.mem_cons_of_mem _ hq))
    | ref rIn =>
      rcases hread p (List.mem_cons_self _ _) rIn hp2 with ⟨fm, hfm⟩
      unfold readFinishObj at hfm
      cases hh0 : hget h0 rIn with
      | none => rw [hh0] at hfm; cases hfm
      | some ofin =>
        rw [hh0] at hfm
        have hlt : rIn < h0.next := ref_lt_next hWF hh0
        have hsame : hget (ensureField h rVen p.1).1 rIn = some ofin := by
          show (ensureField h rVen p.1).1.objs rIn = some ofin
          rw [he.1.2.1 rIn hlt]
          exact hh0
        have hmerge := heapInv_mergeFinishesH hWF
          ((hget (ensureField h rVen p.1).1 rIn).getD [])
          he.1 he.2 (by
            rw [hsame]
            exact readFinishMapFields_refs hfm)
        exact ih hmerge hr (fun q hq => hread q (List.mem_cons_of_mem _ hq))

theorem heapInv_mergeVendorsH {h0 : Heap} (hWF : WFHeap h0) :
    ∀ (vendors : Obj JVal) {h : Heap} {rRes : Nat},
    HeapInv h0 h → h0.next ≤ rRes →
    (∀ p ∈ vendors, ∀ rIn, p.2 = JVal.ref rIn → ∃ tm, readTypeObj h0 rIn = some tm) →
    HeapInv h0 (mergeVendorsH h rRes vendors) := by
  intro vendors
  induction vendors with
  | nil => intro h rRes hI _ _; exact hI
  | cons p rest ih =>
    intro h rRes hI hr hread
    have he := heapInv_ensureField hI hr p.1
    show HeapInv h0 (mergeVendorsH
      (match p.2 with
        | JVal.ref rIn =>
          mergeTypesH (ensureField h rRes p.1).1 (ensureField h rRes p.1).2
            ((hget (ensureField h rRes p.1).1 rIn).getD [])
        | JVal.num _ => (ensureField h rRes p.1).1) rRes rest)
    cases hp2 : p.2 with
    | num n =>
      exact ih he.1 hr (fun q hq => hread q (List.mem_cons_of_mem _ hq))
    | ref rIn =>
      rcases hread p (List.mem_cons_self _ _) rIn hp2 with ⟨tm, htm⟩
      unfold readTypeObj at htm
      cases hh0 : hget h0 rIn with
      | none => rw [hh0] at htm; cases htm
      | some oty =>
        rw [hh0] at htm
        have hlt : rIn < h0.next := ref_lt_next hWF hh0
        have hsame : hget (ensureField h rRes p.1).1 rIn = some oty := by
          show (ensureField h rRes p.1).1.objs rIn = some oty
          rw [he.1.2.1 rIn hlt]
          exact hh0
        have hmerge := heapInv_mergeTypesH hWF
          ((hget (ensureField h rRes p.1).1 rIn).getD [])
          he.1 he.2 (by
            rw [hsame]
            exact readTypeMapFields_refs htm)
        exact ih hmerge hr (fun q hq => hread q (List.mem_cons_of_mem _ hq))

theorem heapInv_allocDateObj {h0 : Heap} : ∀ (h : Heap) (dm : DateMap),
    HeapInv h0 h → HeapInv h0 (allocDateObj h dm).1 ∧ h0.next ≤ (allocDateObj h dm).2 := by
  intro h dm hI
  have ha := heapInv_halloc hI (o := dm.map (fun p => (p.1, JVal.num p.2))) (by
    intro p hp r' hpr
    rcases List.mem_map.mp hp with ⟨q, -, rfl⟩
    cases hpr)
  exact ⟨ha.1, ha.2.2.1⟩

theorem heapInv_allocFold {h0 : Heap} {β : Type}
    (alloc1 : Heap → β → Heap × Nat)
    (halloc1 : ∀ (h : Heap) (b : β), HeapInv h0 h →
      HeapInv h0 (alloc1 h b).1 ∧ h0.next ≤ (alloc1 h b).2) :
    ∀ (l : List (String × β)) (h : Heap) (obj0 : Obj JVal),
    HeapInv h0 h → (∀ p ∈ obj0, ∀ r', p.2 = JVal.ref r' → h0.next ≤ r') →
    HeapInv h0 (l.foldl (fun acc p =>
        ((alloc1 acc.1 p.2).1, acc.2 ++ [(p.1, JVal.ref (alloc1 acc.1 p.2).2)])) (h, obj0)).1
    ∧ ∀ p ∈ (l.foldl (fun acc p =>
        ((alloc1 acc.1 p.2).1, acc.2 ++ [(p.1, JVal.ref (alloc1 acc.1 p.2).2)])) (h, obj0)).2,
        ∀ r', p.2 = JVal.ref r' → h0.next ≤ r' := by
  intro l
  induction l with
  | nil => intro h obj0 hI hobj; exact ⟨hI, hobj⟩
  | cons q rest ih =>
    intro h obj0 hI hobj
    simp only [List.foldl_cons]
    have ha := halloc1 h q.2 hI
    apply ih
    · exact ha.1
    · intro p hp r' hpr
      rcases List.mem_append.mp hp with hp' | hp'
      · exact hobj p hp' r' hpr
      · have hpe : p = (q.1, JVal.ref (alloc1 h q.2).2) := by simpa using hp'
        rw [hpe] at hpr
        cases hpr
        exact ha.2

theorem heapInv_allocFinishObj {h0 : Heap} : ∀ (h : Heap) (fm : FinishMap),
    HeapInv h0 h → HeapInv h0 (allocFinishObj h fm).1 ∧ h0.next ≤ (allocFinishObj h fm).2 := by
  intro h fm hI
  have hf := heapInv_allocFold allocDateObj heapInv_allocDateObj fm h []
    hI (fun p hp => by cases hp)
  have hh := heapInv_halloc hf.1 hf.2
  exact ⟨hh.1, hh.2.2.1⟩

theorem heapInv_allocTypeObj {h0 : Heap} : ∀ (h : Heap) (tm : TypeMap),
    HeapInv h0 h → HeapInv h0 (allocTypeObj h tm).1 ∧ h0.next ≤ (allocTypeObj h tm).2 := by
  intro h tm hI
  have hf := heapInv_allocFold allocFinishObj heapInv_allocFinishObj tm h []
    hI (fun p hp => by cases hp)
  have hh := heapInv_halloc hf.1 hf.2
  exact ⟨hh.1, hh.2.2.1⟩

theorem heapInv_allocTree {h0 : Heap} : ∀ (h : Heap) (t : PriceTree),
    HeapInv h0 h → HeapInv h0 (allocTree h t).1 ∧ h0.next ≤ (allocTree h t).2 := by
  intro h t hI
  have hf := heapInv_allocFold allocTypeObj heapInv_allocTypeObj t h []
    hI (fun p hp => by cases hp)
  have hh := heapInv_halloc hf.1 hf.2
  exact ⟨hh.1, hh.2.2.1⟩

/-! ### Old objects read back unchanged -/

theorem readDateObj_frame {h0 h : Heap} (hWF : WFHeap h0) (hI : HeapInv h0 h)
    {r : Nat} {dm : DateMap} (hr : readDateObj h0 r = some dm) :
    readDateObj h r = some dm := by
  unfold readDateObj at hr ⊢
  cases hh : hget h0 r with
  | none => rw [hh] at hr; cases hr
  | some o =>
    rw [hh] at hr
    have hlt : r < h0.next := ref_lt_next hWF hh
    have : hget h r = some o := by
      show h.objs r = some o
      rw [hI.2.1 r hlt]
      exact hh
    rw [this]
    exact hr

theorem readFinishMapFields_frame {h0 h : Heap} (hWF : WFHeap h0) (hI : HeapInv h0 h) :
    ∀ {o : Obj JVal} {fm : FinishMap},
    readFinishMapFields h0 o = some fm → readFinishMapFields h o = some fm := by
  intro o
  induction o with
  | nil => intro fm hr; exact hr
  | cons q rest ih =>
    intro fm hr
    obtain ⟨k, v⟩ := q
    cases v with
    | num n => simp [readFinishMapFields] at hr
    | ref r =>
      simp only [readFinishMapFields] at hr ⊢
      cases hdo : readDateObj h0 r with
      | none => rw [hdo] at hr; cases hr
      | some dm =>
        rw [hdo] at hr
        cases hrest : readFinishMapFields h0 rest with
        | none => rw [hrest] at hr; cases hr
        | some fm' =>
          rw [hrest] at hr
          rw [readDateObj_frame hWF hI hdo, ih hrest]
          exact hr

theorem readFinishObj_frame {h0 h : Heap} (hWF : WFHeap h0) (hI : HeapInv h0 h)
    {r : Nat} {fm : FinishMap} (hr : readFinishObj h0 r = some fm) :
    readFinishObj h r = some fm := by
  unfold readFinishObj at hr ⊢
  cases hh : hget h0 r with
  | none => rw [hh] at hr; cases hr
  | some o =>
    rw [hh] at hr
    have hlt : r < h0.next := ref_lt_next hWF hh
    have hsame : hget h r = some o := by
      show h.objs r = some o
      rw [hI.2.1 r hlt]
      exact hh
    rw [hsame]
    exact readFinishMapFields_frame hWF hI hr

theorem readTypeMapFields_frame {h0 h : Heap} (hWF : WFHeap h0) (hI : HeapInv h0 h) :
    ∀ {o : Obj JVal} {tm : TypeMap},
    readTypeMapFields h0 o = some tm → readTypeMapFields h o = some tm := by
  intro o
  induction o with
  | nil => intro tm hr; exact hr
  | cons q rest ih =>
    intro tm hr
    obtain ⟨k, v⟩ := q
    cases v with
    | num n => simp [readTypeMapFields] at hr
    | ref r =>
      simp only [readTypeMapFields] at hr ⊢
      cases hdo : readFinishObj h0 r with
      | none => rw [hdo] at hr; cases hr
      | some fm =>
        rw [hdo] at hr
        cases hrest : readTypeMapFields h0 rest with
        | none => rw [hrest] at hr; cases hr
        | some tm' =>
          rw [hrest] at hr
          rw [readFinishObj_frame hWF hI hdo, ih hrest]
          exact hr

theorem readTypeObj_frame {h0 h : Heap} (hWF : WFHeap h0) (hI : HeapInv h0 h)
    {r : Nat} {tm : TypeMap} (hr : readTypeObj h0 r = some tm) :
    readTypeObj h r = some tm := by
  unfold readTypeObj at hr ⊢
  cases hh : hget h0 r with
  | none => rw [hh] at hr; cases hr
  | some o =>
    rw [hh] at hr
    have hlt : r < h0.next := ref_lt_next hWF hh
    have hsame : hget h r = some o := by
      show h.objs r = some o
      rw [hI.2.1 r hlt]
      exact hh
    rw [hsame]
    exact readTypeMapFields_frame hWF hI hr

theorem readPriceTreeFields_frame {h0 h : Heap} (hWF : WFHeap h0) (hI : HeapInv h0 h) :
    ∀ {o : Obj JVal} {t : PriceTree},
    readPriceTreeFields h0 o = some t → readPriceTreeFields h o = some t := by
  intro o
  induction o with
  | nil => intro t hr; exact hr
  | cons q rest ih =>
    intro t hr
    obtain ⟨k, v⟩ := q
    cases v with
    | num n => simp [readPriceTreeFields] at hr
    | ref r =>
      simp only [readPriceTreeFields] at hr ⊢
      cases hdo : readTypeObj h0 r with
      | none => rw [hdo] at hr; cases hr
      | some tm =>
        rw [hdo] at hr
        cases hrest : readPriceTreeFields h0 rest with
        | none => rw [hrest] at hr; cases hr
        | some t' =>
          rw [hrest] at hr
          rw [readTypeObj_frame hWF hI hdo, ih hrest]
          exact hr

theorem readTree_frame {h0 h : Heap} (hWF : WFHeap h0) (hI : HeapInv h0 h)
    {r : Nat} {t : PriceTree} (hr : readTree h0 r = some t) :
    readTree h r = some t := by
  unfold readTree at hr ⊢
  cases hh : hget h0 r with
  | none => rw [hh] at hr; cases hr
  | some o =>
    rw [hh] at hr
    have hlt : r < h0.next := ref_lt_next hWF hh
    have hsame : hget h r = some o := by
      show h.objs r = some o
      rw [hI.2.1 r hlt]
      exact hh
    rw [hsame]
    exact readPriceTreeFields_frame hWF hI hr

/-- **C8**: `mergePriceObjects` never mutates either argument and returns
a freshly allocated tree: for any well-formed heap in which `rex` and
`rin` denote price trees, after the call both arguments still denote
exactly the trees they denoted before, and the returned reference is a
fresh one (in particular distinct from both arguments). -/
theorem mergePriceObjectsH_frame (h0 : Heap) (rex rin : Nat) (tex tin : PriceTree)
    (hWF : WFHeap h0) (hex : readTree h0 rex = some tex)
    (hin : readTree h0 rin = some tin) :
    readTree (mergePriceObjectsH h0 rex rin).1 rex = some tex
    ∧ readTree (mergePriceObjectsH h0 rex rin).1 rin = some tin
    ∧ h0.next ≤ (mergePriceObjectsH h0 rex rin).2
    ∧ (mergePriceObjectsH h0 rex rin).2 ≠ rex
    ∧ (mergePriceObjectsH h0 rex rin).2 ≠ rin := by
  have hI0 := heapInv_refl hWF
  have ha := heapInv_allocTree h0 ((readTree h0 rex).getD []) hI0
  have hrexlt : rex < h0.next := by
    have hex2 := hex
    unfold readTree at hex2
    cases hh2 : hget h0 rex with
    | none => rw [hh2] at hex2; cases hex2
    | some o => exact ref_lt_next hWF hh2
  have hin2 := hin
  unfold readTree at hin2
  cases hh : hget h0 rin with
  | none => rw [hh] at hin2; cases hin2
  | some oin =>
    rw [hh] at hin2
    have hrinlt : rin < h0.next := ref_lt_next hWF hh
    have hsame : hget (allocTree h0 ((readTree h0 rex).getD [])).1 rin = some oin := by
      show (allocTree h0 ((readTree h0 rex).getD [])).1.objs rin = some oin
      rw [ha.1.2.1 rin hrinlt]
      exact hh
    have hfin := heapInv_mergeVendorsH hWF
      ((hget (allocTree h0 ((readTree h0 rex).getD [])).1 rin).getD [])
      ha.1 ha.2 (by
        rw [hsame]
        exact readPriceTreeFields_refs hin2)
    refine ⟨readTree_frame hWF hfin hex, readTree_frame hWF hfin hin, ha.2, ?_, ?_⟩
    · show (allocTree h0 ((readTree h0 rex).getD [])).2 ≠ rex
      have := ha.2
      omega
    · show (allocTree h0 ((readTree h0 rex).getD [])).2 ≠ rin
      have := ha.2
      omega

/-- A concrete eight-object heap: the existing history `exHist` behind
reference 0 (objects 0–3) and the incoming snapshot `incSnap` behind
reference 4 (objects 4–7). -/
def witnessTable : List (Obj JVal) :=
  [[("tcgplayer", JVal.ref 1)],
    [("retail", JVal.ref 2)],
    [("normal", JVal.ref 3)],
    [("2024-01-01", JVal.num 5)],
    [("tcgplayer", JVal.ref 5)],
    [("retail", JVal.ref 6)],
    [("normal", JVal.ref 7)],
    [("2024-01-02", JVal.num 6)]]

def witnessObjs (r : Nat) : Option (Obj JVal) :=
  if h : r < 8 then some (witnessTable.get ⟨r, h⟩) else none

def witnessHeap : Heap := ⟨witnessObjs, 8⟩

theorem witnessHeap_WF : WFHeap witnessHeap := by
  intro r hr
  have h8 : 8 ≤ r := hr
  show witnessObjs r = none
  unfold witnessObjs
  rw [dif_neg (by omega)]

theorem mergePriceObjectsH_frame_witness :
    readTree (mergePriceObjectsH witnessHeap 0 4).1 0 = some exHist
    ∧ readTree (mergePriceObjectsH witnessHeap 0 4).1 4 = some incSnap
    ∧ witnessHeap.next ≤ (mergePriceObjectsH witnessHeap 0 4).2 :=
  have h := mergePriceObjectsH_frame witnessHeap 0 4 exHist incSnap
    witnessHeap_WF (by decide) (by decide)
  ⟨h.1, h.2.1, h.2.2.1⟩
